import Mathlib

/-!
Verification of the core transformation logic of the distributions ETL script
(src/distributions-etl.py).  The script denormalizes facility-visit records:
it builds keyed tables from row data (rowToTable), pivots child line-item
records into fixed column sets on the parent visit row (pivotLineItems,
mapLineItemsToFacVisits), flattens the geographic-zone hierarchy
(geoZoneFlatten), and computes the previous-visit date per facility
(generateLastVisitDate).

The embedding below models Python dicts as association lists with
update-in-place-or-append insertion (so key sets behave like dict key sets),
Python values as the inductive type Value (None becomes Value.null), and
raised exceptions as an Except error monad.  The toUtf helper of the script
is the identity on this value model (it only re-encodes strings), so it is
not modelled separately.
-/

namespace Etl

/-- Scalar values carried in the rows of the script: SQL strings, integers,
dates (coded as an ordinal number) and NULL (Python None). -/
inductive Value where
  | null : Value
  | str : String → Value
  | int : Int → Value
  | date : Nat → Value
  deriving DecidableEq, Repr

/-- A Python dict keyed by column name, as used for every record in the
script. -/
abbrev Row := List (String × Value)

/-- A Python dict keyed by an arbitrary scalar (facility-visit ids, geo-zone
ids, pivot key values). -/
abbrev Tab (α : Type) := List (Value × α)

/-- Dictionary lookup: the value stored under the first (unique) occurrence
of a key. -/
def dictGet {κ α : Type} [DecidableEq κ] (d : List (κ × α)) (k : κ) : Option α :=
  (List.find? (fun p => decide (p.1 = k)) d).map (fun p => p.2)

/-- Dictionary assignment d[k] = v: overwrite an existing entry in place, or
append a fresh entry at the end. -/
def dictInsert {κ α : Type} [DecidableEq κ] : List (κ × α) → κ → α → List (κ × α)
  | [], k, v => [(k, v)]
  | p :: rest, k, v => if p.1 = k then (p.1, v) :: rest else p :: dictInsert rest k v

/-- Keys of a dictionary, in storage order. -/
def dictKeys {κ α : Type} (d : List (κ × α)) : List κ := d.map (fun p => p.1)

theorem exceptBindOk {ε α β : Type} (a : α) (f : α → Except ε β) :
    (Except.ok a >>= f : Except ε β) = f a := rfl

theorem exceptBindErr {ε α β : Type} (e : ε) (f : α → Except ε β) :
    (Except.error e >>= f : Except ε β) = Except.error e := rfl

theorem dictGet_insert_self {κ α : Type} [DecidableEq κ] (d : List (κ × α)) (k : κ) (v : α) :
    dictGet (dictInsert d k v) k = some v := by
  induction d with
  | nil => simp [dictInsert, dictGet]
  | cons p rest ih =>
    by_cases h : p.1 = k
    · simp [dictInsert, h, dictGet]
    · simp only [dictInsert, if_neg h]
      simp only [dictGet, List.find?] at ih ⊢
      simp [h, ih]

theorem dictGet_insert_ne {κ α : Type} [DecidableEq κ] (d : List (κ × α)) (k k' : κ) (v : α)
    (h : k' ≠ k) : dictGet (dictInsert d k v) k' = dictGet d k' := by
  induction d with
  | nil => simp [dictInsert, dictGet, List.find?, Ne.symm h]
  | cons p rest ih =>
    by_cases hp : p.1 = k
    · subst hp
      simp [dictInsert, dictGet, List.find?, Ne.symm h]
    · simp only [dictInsert, if_neg hp]
      by_cases hp' : p.1 = k'
      · simp [dictGet, List.find?, hp']
      · simp only [dictGet, List.find?] at ih ⊢
        simp [hp', ih]

theorem dictInsert_of_get_none {κ α : Type} [DecidableEq κ] (d : List (κ × α)) (k : κ) (v : α)
    (h : dictGet d k = none) : dictInsert d k v = d ++ [(k, v)] := by
  induction d with
  | nil => simp [dictInsert]
  | cons p rest ih =>
    by_cases hp : p.1 = k
    · simp [dictGet, List.find?, hp] at h
    · simp only [dictGet, List.find?, hp] at h
      simp only [dictInsert, if_neg hp, List.cons_append, List.cons.injEq, true_and]
      exact ih (by simpa [dictGet, hp] using h)

theorem dictGet_eq_none_of_not_mem {κ α : Type} [DecidableEq κ] (d : List (κ × α)) (k : κ)
    (h : k ∉ dictKeys d) : dictGet d k = none := by
  induction d with
  | nil => simp [dictGet]
  | cons p rest ih =>
    simp only [dictKeys, List.map_cons, List.mem_cons, not_or] at h
    have hp : ¬ p.1 = k := fun hc => h.1 hc.symm
    simp only [dictGet, List.find?, hp]
    simpa [dictGet, hp] using ih (by simpa [dictKeys] using h.2)

theorem dictGet_isSome_of_mem {κ α : Type} [DecidableEq κ] (d : List (κ × α)) (k : κ)
    (h : k ∈ dictKeys d) : (dictGet d k).isSome := by
  induction d with
  | nil => simp [dictKeys] at h
  | cons p rest ih =>
    by_cases hp : p.1 = k
    · simp [dictGet, List.find?, hp]
    · simp only [dictKeys, List.map_cons, List.mem_cons] at h
      rcases h with h | h
      · exact absurd h.symm hp
      · simpa [dictGet, List.find?, hp] using ih h

/-- Rows grouped under one key of a keyed table: a single record, or (when
duplicates were allowed) the ordered list of records sharing the key. -/
inductive Entry where
  | one : Row → Entry
  | many : List Row → Entry
  deriving DecidableEq, Repr

/-- The list of records an entry holds, in order (the isinstance(_, list)
normalization done at the top of the pivot loop). -/
def Entry.toList : Entry → List Row
  | .one r => [r]
  | .many rs => rs

/-- Exceptions the script can raise in the modelled code paths. -/
inductive Err where
  | missingKeyColumn : String → Err
  | duplicateKey : Value → Err
  | keyError : String → Err
  | tableKeyError : Value → Err
  | attributeError : Err
  | outOfFuel : Err
  deriving DecidableEq, Repr

/-- Loop of rowToTable, carrying the table built so far.  For each row: the
key column must be present (LookupError otherwise); with allowDupes false a
key already in the table raises the duplicate-key error; otherwise the row
is entered, grouping with previous rows under the same key into a list. -/
def rowToTableAux (keyColumn : String) (allowDupes : Bool) :
    List Row → Tab Entry → Except Err (Tab Entry)
  | [], table => .ok table
  | row :: rest, table =>
    match dictGet row keyColumn with
    | none => .error (.missingKeyColumn keyColumn)
    | some key =>
      if allowDupes = false ∧ (dictGet table key).isSome then .error (.duplicateKey key)
      else
        let entry : Entry :=
          match dictGet table key with
          | none => .one row
          | some (.one r) => .many [r, row]
          | some (.many rs) => .many (rs ++ [row])
        rowToTableAux keyColumn allowDupes rest (dictInsert table key entry)

/-- rowToTable of the script: turns a list of dicts into a dict keyed off one
common column of the dicts. -/
def rowToTable (rowData : List Row) (keyColumn : String) (allowDupes : Bool) :
    Except Err (Tab Entry) :=
  rowToTableAux keyColumn allowDupes rowData []

/-- Specification helper: the effect on one key of appending a list of
matching rows to an existing optional entry, following the list-grouping
semantics of rowToTable. -/
def appendEntry : Option Entry → List Row → Option Entry
  | e, [] => e
  | none, [m] => some (.one m)
  | none, ms => some (.many ms)
  | some (.one r), ms => some (.many (r :: ms))
  | some (.many rs), ms => some (.many (rs ++ ms))

/-- Rows of a list whose key column holds the value k. -/
def rowsWithKey (rows : List Row) (col : String) (k : Value) : List Row :=
  rows.filter (fun r => decide (dictGet r col = some k))

theorem rowsWithKey_cons (row : Row) (rows : List Row) (col : String) (k : Value) :
    rowsWithKey (row :: rows) col k =
      if dictGet row col = some k then row :: rowsWithKey rows col k
      else rowsWithKey rows col k := by
  by_cases h : dictGet row col = some k <;> simp [rowsWithKey, h]

/-- Characterization of the permissive (allowDupes = true) table build: it
always succeeds when every row has the key column, and the entry under each
key collects the matching rows in order on top of the accumulator. -/
theorem rowToTableAux_permissive_char (col : String) (rows : List Row) (acc : Tab Entry)
    (hall : ∀ r ∈ rows, (dictGet r col).isSome) :
    ∃ t, rowToTableAux col true rows acc = .ok t ∧
      ∀ k, dictGet t k = appendEntry (dictGet acc k) (rowsWithKey rows col k) := by
  induction rows generalizing acc with
  | nil => exact ⟨acc, rfl, fun k => by simp [rowsWithKey, appendEntry]⟩
  | cons row rest ih =>
    have hrow : (dictGet row col).isSome := hall row (List.mem_cons_self _ _)
    obtain ⟨key, hkey⟩ := Option.isSome_iff_exists.mp hrow
    have hrest : ∀ r ∈ rest, (dictGet r col).isSome := fun r hr => hall r (List.mem_cons_of_mem _ hr)
    set entry : Entry :=
      match dictGet acc key with
      | none => .one row
      | some (.one r) => .many [r, row]
      | some (.many rs) => .many (rs ++ [row]) with hentry
    obtain ⟨t, hok, hchar⟩ := ih (dictInsert acc key entry) hrest
    refine ⟨t, ?_, ?_⟩
    · simpa [rowToTableAux, hkey] using hok
    · intro k
      rw [hchar k]
      by_cases hk : k = key
      · subst hk
        rw [rowsWithKey_cons, if_pos hkey, dictGet_insert_self]
        cases hacc : dictGet acc k with
        | none =>
          simp only [hentry, hacc]
          cases hms : rowsWithKey rest col k with
          | nil => simp [appendEntry]
          | cons m ms => simp [appendEntry]
        | some e =>
          cases e with
          | one r =>
            simp only [hentry, hacc]
            cases hms : rowsWithKey rest col k with
            | nil => simp [appendEntry]
            | cons m ms => simp [appendEntry]
          | many rs =>
            simp only [hentry, hacc]
            cases hms : rowsWithKey rest col k with
            | nil => simp [appendEntry]
            | cons m ms => simp [appendEntry]
      · have hne : ¬ dictGet row col = some k := by
          rw [hkey]; intro hc; exact hk (Option.some.inj hc).symm
        rw [rowsWithKey_cons, if_neg hne, dictGet_insert_ne _ _ _ _ hk]

/-- Failure of the strict (allowDupes = false) table build: when every row
has the key column and some key value occurs at least twice (counting a key
already present in the accumulator as one occurrence), the build raises the
duplicate-key error for such a key. -/
theorem rowToTableAux_strict_dup (col : String) (rows : List Row) (acc : Tab Entry)
    (hall : ∀ r ∈ rows, (dictGet r col).isSome)
    (hdup : ∃ k, 2 ≤ (rowsWithKey rows col k).length +
      (if (dictGet acc k).isSome then 1 else 0)) :
    ∃ k, rowToTableAux col false rows acc = .error (.duplicateKey k) ∧
      2 ≤ (rowsWithKey rows col k).length +
        (if (dictGet acc k).isSome then 1 else 0) := by
  induction rows generalizing acc with
  | nil =>
    obtain ⟨k, hk⟩ := hdup
    by_cases h : (dictGet acc k).isSome <;> simp [rowsWithKey, h] at hk
  | cons row rest ih =>
    have hrow : (dictGet row col).isSome := hall row (List.mem_cons_self _ _)
    obtain ⟨key, hkey⟩ := Option.isSome_iff_exists.mp hrow
    have hrest : ∀ r ∈ rest, (dictGet r col).isSome := fun r hr => hall r (List.mem_cons_of_mem _ hr)
    by_cases hmem : (dictGet acc key).isSome
    · refine ⟨key, ?_, ?_⟩
      · simp [rowToTableAux, hkey, hmem]
      · rw [rowsWithKey_cons, if_pos hkey, if_pos hmem]
        simp
    · have hstep : rowToTableAux col false (row :: rest) acc =
          rowToTableAux col false rest (dictInsert acc key (.one row)) := by
        simp only [rowToTableAux, hkey]
        rw [if_neg (by simp [hmem])]
        have haccnone : dictGet acc key = none := by
          cases h : dictGet acc key with
          | none => rfl
          | some e => exact absurd (by simp [h]) hmem
        simp [haccnone]
      have hdup2 : ∃ k, 2 ≤ (rowsWithKey rest col k).length +
          (if (dictGet (dictInsert acc key (.one row)) k).isSome then 1 else 0) := by
        obtain ⟨k, hk⟩ := hdup
        by_cases hkk : k = key
        · subst hkk
          rw [rowsWithKey_cons, if_pos hkey, if_neg hmem] at hk
          refine ⟨k, ?_⟩
          rw [dictGet_insert_self]
          simp at hk ⊢
          omega
        · have hne : ¬ dictGet row col = some k := by
            rw [hkey]; intro hc; exact hkk (Option.some.inj hc).symm
          rw [rowsWithKey_cons, if_neg hne] at hk
          refine ⟨k, ?_⟩
          rw [dictGet_insert_ne _ _ _ _ hkk]
          exact hk
      obtain ⟨k, herr, hbound⟩ := ih (dictInsert acc key (.one row)) hrest hdup2
      refine ⟨k, hstep ▸ herr, ?_⟩
      by_cases hkk : k = key
      · subst hkk
        rw [dictGet_insert_self] at hbound
        rw [rowsWithKey_cons, if_pos hkey, if_neg hmem]
        simp at hbound ⊢
        omega
      · rw [dictGet_insert_ne _ _ _ _ hkk] at hbound
        have hne : ¬ dictGet row col = some k := by
          rw [hkey]; intro hc; exact hkk (Option.some.inj hc).symm
        rw [rowsWithKey_cons, if_neg hne]
        exact hbound

/-- C5: building a keyed table from a record sequence in which some key value
occurs in at least two records fails with the duplicate-key error (naming a
duplicated key) when allowDuplicates is false, and succeeds when
allowDuplicates is true, grouping the duplicated records into an ordered
list under their key. -/
theorem rowToTable_duplicate_key_modes (rows : List Row) (col : String)
    (hall : ∀ r ∈ rows, (dictGet r col).isSome)
    (hdup : ∃ k, 2 ≤ (rowsWithKey rows col k).length) :
    (∃ k, rowToTable rows col false = .error (.duplicateKey k) ∧
        2 ≤ (rowsWithKey rows col k).length) ∧
    (∃ t, rowToTable rows col true = .ok t ∧
        ∀ k, 2 ≤ (rowsWithKey rows col k).length →
          dictGet t k = some (.many (rowsWithKey rows col k))) := by
  constructor
  · obtain ⟨k, herr, hb⟩ := rowToTableAux_strict_dup col rows [] hall
      (by obtain ⟨k, hk⟩ := hdup; exact ⟨k, by simpa [dictGet] using hk⟩)
    exact ⟨k, herr, by simpa [dictGet] using hb⟩
  · obtain ⟨t, hok, hchar⟩ := rowToTableAux_permissive_char col rows [] hall
    refine ⟨t, hok, fun k hk => ?_⟩
    rw [hchar k]
    have : dictGet ([] : Tab Entry) k = none := by simp [dictGet]
    rw [this]
    cases hms : rowsWithKey rows col k with
    | nil => simp [hms] at hk
    | cons m ms =>
      cases ms with
      | nil => simp [hms] at hk
      | cons m2 ms2 => simp [appendEntry]

/-- Witness for C5 at a concrete input: two records sharing key value a. -/
theorem rowToTable_duplicate_key_modes_witness :
    (∃ k, rowToTable [[("k", Value.str "a")], [("k", Value.str "a"), ("x", Value.int 1)]]
        "k" false = .error (.duplicateKey k) ∧
      2 ≤ (rowsWithKey [[("k", Value.str "a")], [("k", Value.str "a"), ("x", Value.int 1)]]
        "k" k).length) ∧
    (∃ t, rowToTable [[("k", Value.str "a")], [("k", Value.str "a"), ("x", Value.int 1)]]
        "k" true = .ok t ∧
      ∀ k, 2 ≤ (rowsWithKey [[("k", Value.str "a")], [("k", Value.str "a"), ("x", Value.int 1)]]
          "k" k).length →
        dictGet t k = some (.many (rowsWithKey
          [[("k", Value.str "a")], [("k", Value.str "a"), ("x", Value.int 1)]] "k" k))) :=
  rowToTable_duplicate_key_modes
    [[("k", Value.str "a")], [("k", Value.str "a"), ("x", Value.int 1)]] "k"
    (by decide) ⟨Value.str "a", by decide⟩

/-- Name of a pivoted output column: keyColValue, underscore, source column,
then the caller-supplied rename when one was given. -/
def renameCol (colRename : Option (String → String)) (kcVal col : String) : String :=
  match colRename with
  | none => kcVal ++ "_" ++ col
  | some f => f (kcVal ++ "_" ++ col)

/-- Value of one pivoted cell: the source column read from the child record
stored under the pivot key value, null when there is no such record or the
record lacks the column.  A grouped (list) entry would make the untyped
lookup fail, which the strict inner table build rules out. -/
def pivotCell (liAsTable : Tab Entry) (kcVal col : String) : Except Err Value :=
  match dictGet liAsTable (Value.str kcVal) with
  | none => .ok Value.null
  | some (.one lineItem) => .ok ((dictGet lineItem col).getD Value.null)
  | some (.many _) => .error .attributeError

/-- Inner loop of the pivot: one pass over the source columns for a fixed
pivot key value, writing one output cell per column. -/
def pivotCols (liAsTable : Tab Entry) (kcVal : String) (colRename : Option (String → String)) :
    List String → Row → Except Err Row
  | [], liDict => .ok liDict
  | col :: cols, liDict => do
    let theVal ← pivotCell liAsTable kcVal col
    pivotCols liAsTable kcVal colRename cols (dictInsert liDict (renameCol colRename kcVal col) theVal)

/-- Outer loop of the pivot cross product: one pass over the pivot key
universe. -/
def pivotKeys (liAsTable : Tab Entry) (colRename : Option (String → String))
    (columns : List String) : List String → Row → Except Err Row
  | [], liDict => .ok liDict
  | kcVal :: kvs, liDict => do
    let liDict2 ← pivotCols liAsTable kcVal colRename columns liDict
    pivotKeys liAsTable colRename columns kvs liDict2

/-- Pivot of the child records of one parent: normalize the entry to a list,
build the inner keyed table over the pivot key column (strict mode: the
allowDupes argument is left at its false default in the script), then fill
the full keyValue times column cross product. -/
def pivotEntry (liValue : Entry) (keyColName : String) (keyColValues : List String)
    (columns : List String) (colRename : Option (String → String)) : Except Err Row := do
  let liAsTable ← rowToTable (Entry.toList liValue) keyColName false
  pivotKeys liAsTable colRename columns keyColValues []

/-- Loop of pivotLineItems over the item table, collecting one pivoted dict
per parent key. -/
def pivotAll (keyColName : String) (keyColValues : List String) (columns : List String)
    (colRename : Option (String → String)) : Tab Entry → Tab Row → Except Err (Tab Row)
  | [], pivotD => .ok pivotD
  | (liKey, liValue) :: rest, pivotD => do
    let liDict ← pivotEntry liValue keyColName keyColValues columns colRename
    pivotAll keyColName keyColValues columns colRename rest (dictInsert pivotD liKey liDict)

/-- Result of pivotLineItems: the untouched item table when no column list
was given, otherwise the parent-id-to-pivoted-columns mapping. -/
inductive PivotResult where
  | table : Tab Entry → PivotResult
  | pivoted : Tab Row → PivotResult
  deriving DecidableEq, Repr

/-- pivotLineItems of the script: early return of the item table itself when
columns is None, otherwise the pivot loop starting from an empty dict. -/
def pivotLineItems (itemTable : Tab Entry) (keyColName : String) (keyColValues : List String) :
    Option (List String) → Option (String → String) → Except Err PivotResult
  | none, _ => .ok (.table itemTable)
  | some cols, colRename =>
    (pivotAll keyColName keyColValues cols colRename itemTable []).map .pivoted

/-- C9: calling the pivot with a None column list returns the item table
itself unchanged, not a parent-id-to-column mapping. -/
theorem pivotLineItems_none_columns (itemTable : Tab Entry) (keyColName : String)
    (keyColValues : List String) (colRename : Option (String → String)) :
    pivotLineItems itemTable keyColName keyColValues none colRename = .ok (.table itemTable) :=
  rfl

/-- Lookup distributes over list append, first dictionary first. -/
theorem dictGet_append {κ α : Type} [DecidableEq κ] (d1 d2 : List (κ × α)) (k : κ) :
    dictGet (d1 ++ d2) k = (dictGet d1 k).or (dictGet d2 k) := by
  induction d1 with
  | nil => simp [dictGet]
  | cons p rest ih =>
    by_cases hp : p.1 = k
    · simp [dictGet, List.find?, hp, Option.or]
    · simpa [dictGet, List.find?, hp] using ih

/-- Lookup in a literal pair list with distinct keys returns the value paired
with the key. -/
theorem dictGet_of_nodup_mem {κ α : Type} [DecidableEq κ] (ps : List (κ × α)) (k : κ) (v : α)
    (hnd : (ps.map (fun p => p.1)).Nodup) (hmem : (k, v) ∈ ps) : dictGet ps k = some v := by
  induction ps with
  | nil => simp at hmem
  | cons p rest ih =>
    simp only [List.map_cons, List.nodup_cons] at hnd
    rcases List.mem_cons.mp hmem with h | h
    · subst h; simp [dictGet, List.find?]
    · have hp : ¬ p.1 = k := by
        intro hc
        exact hnd.1 (hc ▸ (List.mem_map.mpr ⟨(k, v), h, rfl⟩))
      simpa [dictGet, List.find?, hp] using ih hnd.2 h

/-- Folding dictionary assignments of a pair list into a dictionary, in
order (the way every pivot output dict is built). -/
def insertAllD {κ α : Type} [DecidableEq κ] (d : List (κ × α)) (ps : List (κ × α)) :
    List (κ × α) :=
  ps.foldl (fun d p => dictInsert d p.1 p.2) d

/-- Folding assignments with pairwise distinct fresh keys appends the pair
list literally. -/
theorem insertAllD_eq_append {κ α : Type} [DecidableEq κ] (ps : List (κ × α))
    (hnd : (ps.map (fun p => p.1)).Nodup) :
    ∀ d : List (κ × α), (∀ p ∈ ps, dictGet d p.1 = none) → insertAllD d ps = d ++ ps := by
  induction ps with
  | nil => intro d _; simp [insertAllD]
  | cons p rest ih =>
    intro d hfresh
    simp only [List.map_cons, List.nodup_cons] at hnd
    have hstep : dictInsert d p.1 p.2 = d ++ [p] := by
      rw [dictInsert_of_get_none d p.1 p.2 (hfresh p (List.mem_cons_self _ _))]
    have : insertAllD d (p :: rest) = insertAllD (dictInsert d p.1 p.2) rest := rfl
    rw [this, hstep, ih hnd.2 (d ++ [p]) ?_, List.append_assoc]
    · rfl
    · intro q hq
      rw [dictGet_append]
      have h1 : dictGet d q.1 = none := hfresh q (List.mem_cons_of_mem _ hq)
      have h2 : dictGet [p] q.1 = none := by
        have : ¬ p.1 = q.1 := fun hc => hnd.1 (hc ▸ (List.mem_map.mpr ⟨q, hq, rfl⟩))
        simp [dictGet, List.find?, this]
      rw [h1, h2]
      rfl

/-- Success characterization of the strict (allowDupes = false) table build:
each key of the result holds the single matching row, and no row can match a
key already present in the accumulator. -/
theorem rowToTableAux_strict_ok_char (col : String) (rows : List Row) (acc t : Tab Entry)
    (hok : rowToTableAux col false rows acc = .ok t) :
    ∀ k, (dictGet t k = match rowsWithKey rows col k with
            | [] => dictGet acc k
            | r :: _ => some (.one r)) ∧
      ((dictGet acc k).isSome → rowsWithKey rows col k = []) := by
  induction rows generalizing acc with
  | nil =>
    intro k
    have : acc = t := by
      simpa [rowToTableAux] using hok
    subst this
    simp [rowsWithKey]
  | cons row rest ih =>
    cases hkey : dictGet row col with
    | none => simp [rowToTableAux, hkey] at hok
    | some key =>
      by_cases hmem : (dictGet acc key).isSome
      · simp [rowToTableAux, hkey, hmem] at hok
      · have haccnone : dictGet acc key = none := by
          cases h : dictGet acc key with
          | none => rfl
          | some e => exact absurd (by simp [h]) hmem
        have hstep : rowToTableAux col false (row :: rest) acc =
            rowToTableAux col false rest (dictInsert acc key (.one row)) := by
          simp only [rowToTableAux, hkey]
          rw [if_neg (by simp [hmem])]
          simp [haccnone]
        rw [hstep] at hok
        intro k
        have ihk := ih (dictInsert acc key (.one row)) hok k
        by_cases hk : k = key
        · subst hk
          have hempty : rowsWithKey rest col k = [] :=
            ihk.2 (by rw [dictGet_insert_self]; rfl)
          constructor
          · rw [rowsWithKey_cons, if_pos hkey]
            rw [hempty] at ihk
            simpa [dictGet_insert_self] using ihk.1
          · intro hs
            rw [haccnone] at hs
            simp at hs
        · have hne : ¬ dictGet row col = some k := by
            rw [hkey]; intro hc; exact hk (Option.some.inj hc).symm
          rw [dictGet_insert_ne _ _ _ _ hk] at ihk
          constructor
          · rw [rowsWithKey_cons, if_neg hne]
            exact ihk.1
          · intro hs
            rw [rowsWithKey_cons, if_neg hne]
            exact ihk.2 hs

/-- Existence of the strict table build when every row has the key column,
no key value occurs twice, and no key value is already in the
accumulator. -/
theorem rowToTableAux_strict_ok_exists (col : String) (rows : List Row) (acc : Tab Entry)
    (hall : ∀ r ∈ rows, (dictGet r col).isSome)
    (hnd : ∀ k, (rowsWithKey rows col k).length ≤ 1)
    (hdisj : ∀ k, (dictGet acc k).isSome → rowsWithKey rows col k = []) :
    ∃ t, rowToTableAux col false rows acc = .ok t := by
  induction rows generalizing acc with
  | nil => exact ⟨acc, rfl⟩
  | cons row rest ih =>
    have hrow : (dictGet row col).isSome := hall row (List.mem_cons_self _ _)
    obtain ⟨key, hkey⟩ := Option.isSome_iff_exists.mp hrow
    have hmem : ¬ (dictGet acc key).isSome := by
      intro hs
      have := hdisj key hs
      rw [rowsWithKey_cons, if_pos hkey] at this
      simp at this
    have haccnone : dictGet acc key = none := by
      cases h : dictGet acc key with
      | none => rfl
      | some e => exact absurd (by simp [h]) hmem
    have hstep : rowToTableAux col false (row :: rest) acc =
        rowToTableAux col false rest (dictInsert acc key (.one row)) := by
      simp only [rowToTableAux, hkey]
      rw [if_neg (by simp [hmem])]
      simp [haccnone]
    rw [hstep]
    refine ih (dictInsert acc key (.one row)) (fun r hr => hall r (List.mem_cons_of_mem _ hr))
      (fun k => ?_) (fun k hs => ?_)
    · have := hnd k
      rw [rowsWithKey_cons] at this
      split at this
      · simp only [List.length_cons] at this; omega
      · exact this
    · by_cases hk : k = key
      · subst hk
        have := hnd k
        rw [rowsWithKey_cons, if_pos hkey] at this
        cases h : rowsWithKey rest col k with
        | nil => rfl
        | cons a l => rw [h] at this; simp at this
      · rw [dictGet_insert_ne _ _ _ _ hk] at hs
        have := hdisj k hs
        rw [rowsWithKey_cons] at this
        split at this
        · exact absurd this (by simp)
        · exact this

/-- Value the pivot writes for one (keyValue, sourceColumn) cell, read off
the inner keyed table. -/
def cellVal (liT : Tab Entry) (u c : String) : Value :=
  match dictGet liT (Value.str u) with
  | none => Value.null
  | some (.one r) => (dictGet r c).getD Value.null
  | some (.many _) => Value.null

/-- Cells the pivot writes for one pivot key value, over the source columns
in order. -/
def cellsFor (liT : Tab Entry) (colRename : Option (String → String)) (u : String)
    (C : List String) : List (String × Value) :=
  C.map (fun c => (renameCol colRename u c, cellVal liT u c))

/-- All cells the pivot writes for one parent, over the keyValue times
column cross product in loop order. -/
def pairList (liT : Tab Entry) (colRename : Option (String → String)) :
    List String → List String → List (String × Value)
  | [], _ => []
  | u :: us, C => cellsFor liT colRename u C ++ pairList liT colRename us C

/-- Output column names of one pivot invocation, in write order. -/
def pivotNames (colRename : Option (String → String)) : List String → List String → List String
  | [], _ => []
  | u :: us, C => C.map (renameCol colRename u) ++ pivotNames colRename us C

theorem pairList_map_fst (liT : Tab Entry) (f : Option (String → String))
    (U C : List String) : (pairList liT f U C).map (fun p => p.1) = pivotNames f U C := by
  induction U with
  | nil => rfl
  | cons u us ih =>
    simp only [pairList, pivotNames, List.map_append, ih, cellsFor, List.map_map]
    rfl

theorem pairList_length (liT : Tab Entry) (f : Option (String → String))
    (U C : List String) : (pairList liT f U C).length = U.length * C.length := by
  induction U with
  | nil => simp [pairList]
  | cons u us ih =>
    simp only [pairList, List.length_append, ih, cellsFor, List.length_map, List.length_cons]
    ring

theorem pairList_mem (liT : Tab Entry) (f : Option (String → String))
    (U C : List String) (u c : String) (hu : u ∈ U) (hc : c ∈ C) :
    (renameCol f u c, cellVal liT u c) ∈ pairList liT f U C := by
  induction U with
  | nil => simp at hu
  | cons u0 us ih =>
    rcases List.mem_cons.mp hu with h | h
    · subst h
      exact List.mem_append_left _ (List.mem_map.mpr ⟨c, hc, rfl⟩)
    · exact List.mem_append_right _ (ih h)

/-- A table whose entries are all single rows (what the strict inner build
produces) makes every pivot cell read succeed with its cellVal. -/
theorem pivotCell_ok (liT : Tab Entry) (u c : String)
    (hone : ∀ k e, dictGet liT k = some e → ∃ r, e = .one r) :
    pivotCell liT u c = .ok (cellVal liT u c) := by
  unfold pivotCell cellVal
  cases h : dictGet liT (Value.str u) with
  | none => rfl
  | some e =>
    obtain ⟨r, hr⟩ := hone _ _ h
    subst hr
    rfl

theorem pivotCols_eq (liT : Tab Entry) (u : String) (f : Option (String → String))
    (hone : ∀ k e, dictGet liT k = some e → ∃ r, e = .one r) :
    ∀ (C : List String) (acc : Row),
      pivotCols liT u f C acc = .ok (insertAllD acc (cellsFor liT f u C)) := by
  intro C
  induction C with
  | nil => intro acc; rfl
  | cons c cs ih =>
    intro acc
    simp only [pivotCols, pivotCell_ok liT u c hone, exceptBindOk, cellsFor, List.map_cons]
    exact ih (dictInsert acc (renameCol f u c) (cellVal liT u c))

theorem pivotKeys_eq (liT : Tab Entry) (f : Option (String → String)) (C : List String)
    (hone : ∀ k e, dictGet liT k = some e → ∃ r, e = .one r) :
    ∀ (U : List String) (acc : Row),
      pivotKeys liT f C U acc = .ok (insertAllD acc (pairList liT f U C)) := by
  intro U
  induction U with
  | nil => intro acc; rfl
  | cons u us ih =>
    intro acc
    simp only [pivotKeys, pivotCols_eq liT u f hone C acc, exceptBindOk, pairList]
    rw [ih (insertAllD acc (cellsFor liT f u C))]
    rw [show insertAllD acc (cellsFor liT f u C ++ pairList liT f us C) =
      insertAllD (insertAllD acc (cellsFor liT f u C)) (pairList liT f us C) from
      List.foldl_append _ _ _ _]

/-- The strict inner build only ever stores single rows. -/
theorem rowToTable_strict_one (rows : List Row) (col : String) (liT : Tab Entry)
    (hok : rowToTable rows col false = .ok liT) :
    ∀ k e, dictGet liT k = some e → ∃ r, e = .one r := by
  intro k e he
  have hchar := (rowToTableAux_strict_ok_char col rows [] liT hok k).1
  rw [he] at hchar
  cases h : rowsWithKey rows col k with
  | nil =>
    rw [h] at hchar
    exact absurd hchar (by simp [dictGet])
  | cons r l =>
    rw [h] at hchar
    exact ⟨r, Option.some.inj hchar⟩

/-- Specified value of one pivoted cell in terms of the child records of the
parent entry: null when no child record carries the key value, otherwise
the stored source column of that record, null when the column is absent. -/
def pivotSpecVal (e : Entry) (kc u c : String) : Value :=
  match rowsWithKey (Entry.toList e) kc (Value.str u) with
  | [] => Value.null
  | r :: _ => (dictGet r c).getD Value.null

/-- Under a successful strict inner build, cellVal agrees with the
specification value read from the child records. -/
theorem cellVal_eq_spec (e : Entry) (kc : String) (liT : Tab Entry)
    (hok : rowToTable (Entry.toList e) kc false = .ok liT) (u c : String) :
    cellVal liT u c = pivotSpecVal e kc u c := by
  have hchar := (rowToTableAux_strict_ok_char kc (Entry.toList e) [] liT hok (Value.str u)).1
  unfold cellVal pivotSpecVal
  cases h : rowsWithKey (Entry.toList e) kc (Value.str u) with
  | nil =>
    rw [h] at hchar
    have hnone : dictGet liT (Value.str u) = none := by rw [hchar]; rfl
    rw [hnone]
  | cons r l =>
    rw [h] at hchar
    rw [hchar]

/-- Entry-level pivot characterization: a successful pivotEntry returns
exactly the cross-product pair list (when the output names are pairwise
distinct), via the inner strict table. -/
theorem pivotEntry_char (e : Entry) (kc : String) (U C : List String)
    (f : Option (String → String)) (d : Row)
    (hnames : (pivotNames f U C).Nodup)
    (hok : pivotEntry e kc U C f = .ok d) :
    d.length = U.length * C.length ∧
      ∀ u ∈ U, ∀ c ∈ C, dictGet d (renameCol f u c) = some (pivotSpecVal e kc u c) := by
  unfold pivotEntry at hok
  cases hinner : rowToTable (Entry.toList e) kc false with
  | error err =>
    rw [hinner, exceptBindErr] at hok
    exact Except.noConfusion hok
  | ok liT =>
    rw [hinner] at hok
    simp only [exceptBindOk] at hok
    have hone := rowToTable_strict_one (Entry.toList e) kc liT hinner
    rw [pivotKeys_eq liT f C hone U []] at hok
    have hnd : ((pairList liT f U C).map (fun p => p.1)).Nodup := by
      rw [pairList_map_fst]; exact hnames
    have hd : d = pairList liT f U C := by
      have := insertAllD_eq_append (pairList liT f U C) hnd []
        (fun p _ => by simp [dictGet])
      rw [this] at hok
      simpa using (Except.ok.inj hok).symm
    subst hd
    refine ⟨pairList_length liT f U C, fun u hu c hc => ?_⟩
    rw [dictGet_of_nodup_mem _ _ _ hnd (pairList_mem liT f U C u c hu hc)]
    rw [cellVal_eq_spec e kc liT hinner]

/-- Keys not in the remaining item table keep their accumulated pivot
output. -/
theorem pivotAll_preserves (kc : String) (U C : List String) (f : Option (String → String))
    (tbl : Tab Entry) :
    ∀ acc p : Tab Row, pivotAll kc U C f tbl acc = .ok p →
      ∀ k, k ∉ dictKeys tbl → dictGet p k = dictGet acc k := by
  induction tbl with
  | nil =>
    intro acc p hok k _
    have : acc = p := by simpa [pivotAll] using hok
    rw [this]
  | cons pe rest ih =>
    intro acc p hok k hk
    obtain ⟨pid0, e0⟩ := pe
    simp only [dictKeys, List.map_cons, List.mem_cons, not_or] at hk
    cases hent : pivotEntry e0 kc U C f with
    | error err =>
      rw [pivotAll, hent, exceptBindErr] at hok
      exact Except.noConfusion hok
    | ok d0 =>
      rw [pivotAll, hent] at hok
      simp only [exceptBindOk] at hok
      rw [ih (dictInsert acc pid0 d0) p hok k (by simpa [dictKeys] using hk.2)]
      exact dictGet_insert_ne _ _ _ _ hk.1

/-- Outer pivot characterization: each parent id of the item table is mapped
to the successful entry pivot of its line items. -/
theorem pivotAll_get (kc : String) (U C : List String) (f : Option (String → String))
    (tbl : Tab Entry) :
    ∀ acc p : Tab Row, (dictKeys tbl).Nodup → pivotAll kc U C f tbl acc = .ok p →
      ∀ pid e, dictGet tbl pid = some e →
        ∃ d, pivotEntry e kc U C f = .ok d ∧ dictGet p pid = some d := by
  induction tbl with
  | nil => intro acc p _ _ pid e he; exact absurd he (by simp [dictGet])
  | cons pe rest ih =>
    intro acc p hkeys hok pid e he
    obtain ⟨pid0, e0⟩ := pe
    simp only [dictKeys, List.map_cons, List.nodup_cons] at hkeys
    cases hent : pivotEntry e0 kc U C f with
    | error err =>
      rw [pivotAll, hent, exceptBindErr] at hok
      exact Except.noConfusion hok
    | ok d0 =>
      rw [pivotAll, hent] at hok
      simp only [exceptBindOk] at hok
      by_cases hpid : pid0 = pid
      · subst hpid
        have he0 : e0 = e := by
          have h2 := he
          simp only [dictGet, List.find?] at h2
          exact Option.some.inj (by simpa using h2)
        subst he0
        refine ⟨d0, hent, ?_⟩
        rw [pivotAll_preserves kc U C f rest (dictInsert acc pid0 d0) p hok pid0
          (by simpa [dictKeys] using hkeys.1)]
        exact dictGet_insert_self _ _ _
      · have he' : dictGet rest pid = some e := by
          simpa [dictGet, List.find?, hpid] using he
        exact ih (dictInsert acc pid0 d0) p hkeys.2 hok pid e he'

/-- Counterexample to C1 as stated: with key universe [a] and source column
list [b, b] the two (keyValue, sourceColumn) pairs share the raw output
name a_b, the dict write collapses them, and the parent receives one entry
rather than ones times two. -/
theorem pivot_column_count_collision :
    pivotLineItems [(Value.int 1, Entry.one [("code", Value.str "a")])] "code" ["a"]
        (some ["b", "b"]) none = .ok (.pivoted [(Value.int 1, [("a_b", Value.null)])]) ∧
      ([("a_b", Value.null)] : Row).length ≠ ["a"].length * ["b", "b"].length :=
  ⟨rfl, by decide⟩

/-- C1 amended: provided the pivot succeeds and the final (renamed) output
column names of the keyUniverse times sourceColumns cross product are
pairwise distinct, every parent id present in the item table is mapped to a
dict with exactly keyUniverse times sourceColumns many entries, the entry
for a pair (u, c) sits under the rename of u_c, and its value is null
whenever no child record of that parent carries key value u or the matching
record lacks column c, never a missing column. -/
theorem pivotLineItems_uniform_schema (itemTable : Tab Entry) (kc : String)
    (U C : List String) (f : Option (String → String)) (p : Tab Row)
    (hkeys : (dictKeys itemTable).Nodup)
    (hnames : (pivotNames f U C).Nodup)
    (hsucc : pivotLineItems itemTable kc U (some C) f = .ok (.pivoted p)) :
    ∀ pid e, dictGet itemTable pid = some e →
      ∃ d, dictGet p pid = some d ∧ d.length = U.length * C.length ∧
        ∀ u ∈ U, ∀ c ∈ C, dictGet d (renameCol f u c) = some (pivotSpecVal e kc u c) := by
  intro pid e he
  have hall : ∃ q, pivotAll kc U C f itemTable [] = .ok q ∧ q = p := by
    simp only [pivotLineItems] at hsucc
    cases h : pivotAll kc U C f itemTable [] with
    | error err =>
      rw [h] at hsucc
      exact Except.noConfusion hsucc
    | ok q =>
      rw [h] at hsucc
      simp only [Except.map] at hsucc
      refine ⟨q, rfl, ?_⟩
      have := Except.ok.inj hsucc
      injection this
  obtain ⟨q, hq, rfl⟩ := hall
  obtain ⟨d, hent, hget⟩ := pivotAll_get kc U C f itemTable [] q hkeys hq pid e he
  obtain ⟨hlen, hvals⟩ := pivotEntry_char e kc U C f d hnames hent
  exact ⟨d, hget, hlen, hvals⟩

/-- Witness for the amended C1: one parent with a single child record for
key value a; key universe [a, b] with source column x gives exactly two
columns, the missing combination null-filled. -/
theorem pivotLineItems_uniform_schema_witness :
    (dictKeys [(Value.int 1, Entry.one [("code", Value.str "a"), ("x", Value.int 5)])]).Nodup ∧
      (pivotNames none ["a", "b"] ["x"]).Nodup ∧
      ∀ pid e, dictGet [(Value.int 1, Entry.one [("code", Value.str "a"), ("x", Value.int 5)])]
          pid = some e →
        ∃ d, dictGet [(Value.int 1, [("a_x", Value.int 5), ("b_x", Value.null)])] pid = some d ∧
          d.length = (["a", "b"] : List String).length * (["x"] : List String).length ∧
          ∀ u ∈ (["a", "b"] : List String), ∀ c ∈ (["x"] : List String),
            dictGet d (renameCol none u c) = some (pivotSpecVal e "code" u c) :=
  ⟨by decide, by decide,
    pivotLineItems_uniform_schema
      [(Value.int 1, Entry.one [("code", Value.str "a"), ("x", Value.int 5)])] "code"
      ["a", "b"] ["x"] none [(Value.int 1, [("a_x", Value.int 5), ("b_x", Value.null)])]
      (by decide) (by decide) rfl⟩

/-- Pivot failure on duplicate pivot keys, at the level of the item-table
loop: as soon as one entry of the remaining table holds two child records
sharing a pivot key value (and every child record carries the key column),
the loop stops with the duplicate-key error raised by the strict inner
build. -/
theorem pivotAll_dup_fails (kc : String) (U C : List String) (f : Option (String → String))
    (tbl : Tab Entry)
    (hall : ∀ pe ∈ tbl, ∀ r ∈ Entry.toList pe.2, (dictGet r kc).isSome)
    (hdup : ∃ pe ∈ tbl, ∃ k, 2 ≤ (rowsWithKey (Entry.toList pe.2) kc k).length) :
    ∀ acc : Tab Row, ∃ k, pivotAll kc U C f tbl acc = .error (.duplicateKey k) ∧
      ∃ pe ∈ tbl, 2 ≤ (rowsWithKey (Entry.toList pe.2) kc k).length := by
  induction tbl with
  | nil => obtain ⟨pe, hmem, _⟩ := hdup; simp at hmem
  | cons pe0 rest ih =>
    intro acc
    obtain ⟨pid0, e0⟩ := pe0
    have hall0 : ∀ r ∈ Entry.toList e0, (dictGet r kc).isSome :=
      hall (pid0, e0) (List.mem_cons_self _ _)
    by_cases hd0 : ∃ k, 2 ≤ (rowsWithKey (Entry.toList e0) kc k).length
    · obtain ⟨k, herr, hb⟩ := rowToTableAux_strict_dup kc (Entry.toList e0) [] hall0
        (by obtain ⟨k, hk⟩ := hd0; exact ⟨k, by simpa [dictGet] using hk⟩)
      refine ⟨k, ?_, (pid0, e0), List.mem_cons_self _ _, by simpa [dictGet] using hb⟩
      have hent : pivotEntry e0 kc U C f = .error (.duplicateKey k) := by
        unfold pivotEntry
        rw [show rowToTable (Entry.toList e0) kc false = .error (.duplicateKey k) from herr]
        rfl
      rw [pivotAll, hent]
      rfl
    · have hnd : ∀ k, (rowsWithKey (Entry.toList e0) kc k).length ≤ 1 := by
        intro k
        by_contra hc
        exact hd0 ⟨k, by omega⟩
      obtain ⟨liT, hliT⟩ := rowToTableAux_strict_ok_exists kc (Entry.toList e0) [] hall0 hnd
        (fun k hs => absurd hs (by simp [dictGet]))
      have hone := rowToTable_strict_one (Entry.toList e0) kc liT hliT
      have hent : pivotEntry e0 kc U C f = .ok (insertAllD [] (pairList liT f U C)) := by
        unfold pivotEntry
        rw [show rowToTable (Entry.toList e0) kc false = .ok liT from hliT, exceptBindOk]
        exact pivotKeys_eq liT f C hone U []
      have hrest : ∃ pe ∈ rest, ∃ k, 2 ≤ (rowsWithKey (Entry.toList pe.2) kc k).length := by
        obtain ⟨pe, hmem, k, hk⟩ := hdup
        rcases List.mem_cons.mp hmem with h | h
        · subst h; exact absurd ⟨k, hk⟩ hd0
        · exact ⟨pe, h, k, hk⟩
      obtain ⟨k, herr, pe, hmem, hb⟩ :=
        ih (fun q hq => hall q (List.mem_cons_of_mem _ hq)) hrest
          (dictInsert acc pid0 (insertAllD [] (pairList liT f U C)))
      refine ⟨k, ?_, pe, List.mem_cons_of_mem _ hmem, hb⟩
      rw [pivotAll, hent, exceptBindOk]
      exact herr

/-- Counterexample to C3 as stated: one parent whose two child records share
the pivot key value a makes the pivot fail with the duplicate-key error (the
inner build runs in strict mode), rather than accepting the duplicates. -/
theorem pivot_duplicate_child_key_error :
    pivotLineItems
        [(Value.int 1, Entry.many [[("code", Value.str "a")], [("code", Value.str "a")]])]
        "code" ["a"] (some ["x"]) none = .error (.duplicateKey (Value.str "a")) := rfl

/-- C3 amended: when some entry of the item table holds two child records
sharing a value in the pivot key column (and every child record carries the
key column), the pivot does not complete for that parent: it fails with the
duplicate-key error naming a duplicated key, because the inner keyed table
is built with the strict duplicate policy. -/
theorem pivotLineItems_duplicate_key_fails (itemTable : Tab Entry) (kc : String)
    (U C : List String) (f : Option (String → String))
    (hall : ∀ pe ∈ itemTable, ∀ r ∈ Entry.toList pe.2, (dictGet r kc).isSome)
    (hdup : ∃ pe ∈ itemTable, ∃ k, 2 ≤ (rowsWithKey (Entry.toList pe.2) kc k).length) :
    ∃ k, pivotLineItems itemTable kc U (some C) f = .error (.duplicateKey k) ∧
      ∃ pe ∈ itemTable, 2 ≤ (rowsWithKey (Entry.toList pe.2) kc k).length := by
  obtain ⟨k, herr, hwit⟩ := pivotAll_dup_fails kc U C f itemTable hall hdup []
  refine ⟨k, ?_, hwit⟩
  simp only [pivotLineItems, herr]
  rfl

/-- Witness for the amended C3 at the concrete duplicated-key input. -/
theorem pivotLineItems_duplicate_key_fails_witness :
    ∃ k, pivotLineItems
        [(Value.int 1, Entry.many [[("code", Value.str "a"), ("x", Value.int 3)],
          [("code", Value.str "a"), ("x", Value.int 4)]])]
        "code" ["a"] (some ["x"]) none = .error (.duplicateKey k) ∧
      ∃ pe ∈ ([(Value.int 1, Entry.many [[("code", Value.str "a"), ("x", Value.int 3)],
          [("code", Value.str "a"), ("x", Value.int 4)]])] : Tab Entry),
        2 ≤ (rowsWithKey (Entry.toList pe.2) "code" k).length :=
  pivotLineItems_duplicate_key_fails
    [(Value.int 1, Entry.many [[("code", Value.str "a"), ("x", Value.int 3)],
      [("code", Value.str "a"), ("x", Value.int 4)]])]
    "code" ["a"] ["x"] none (by decide)
    ⟨(Value.int 1, Entry.many [[("code", Value.str "a"), ("x", Value.int 3)],
      [("code", Value.str "a"), ("x", Value.int 4)]]),
      by decide, Value.str "a", by decide⟩

/-- Lookup after folding the assignments of a dict with distinct keys: the
folded dict wins where it has the key, the base dict answers otherwise. -/
theorem dictGet_insertAllD {κ α : Type} [DecidableEq κ] (ps : List (κ × α))
    (hnd : (ps.map (fun p => p.1)).Nodup) :
    ∀ (d : List (κ × α)) (k : κ),
      dictGet (insertAllD d ps) k = (dictGet ps k).or (dictGet d k) := by
  induction ps with
  | nil => intro d k; simp [insertAllD, dictGet, Option.or]
  | cons p rest ih =>
    intro d k
    simp only [List.map_cons, List.nodup_cons] at hnd
    have hstep : insertAllD d (p :: rest) = insertAllD (dictInsert d p.1 p.2) rest := rfl
    rw [hstep, ih hnd.2]
    by_cases hk : p.1 = k
    · have hrest : dictGet rest k = none := by
        apply dictGet_eq_none_of_not_mem
        intro hmem
        apply hnd.1
        rw [hk]
        simpa [dictKeys] using hmem
      rw [hrest, hk, dictGet_insert_self]
      have : dictGet (p :: rest) k = some p.2 := by
        simp [dictGet, List.find?, hk]
      rw [this]
      rfl
    · rw [dictGet_insert_ne _ _ _ _ (Ne.symm hk)]
      have : dictGet (p :: rest) k = dictGet rest k := by
        simp [dictGet, List.find?, hk]
      rw [this]

/-- Membership form of a successful dictionary lookup. -/
theorem dictGet_mem {κ α : Type} [DecidableEq κ] (d : List (κ × α)) (k : κ) (v : α)
    (h : dictGet d k = some v) : ∃ q ∈ d, q.1 = k ∧ q.2 = v := by
  unfold dictGet at h
  cases hf : List.find? (fun p => decide (p.1 = k)) d with
  | none => rw [hf] at h; exact absurd h (by simp)
  | some q =>
    rw [hf] at h
    refine ⟨q, List.mem_of_find?_eq_some hf, ?_, by simpa using h⟩
    have := List.find?_some hf
    simpa using this

/-- Inner body of the attach pass of mapLineItemsToFacVisits: read the
parent-row id, look the id up in the pivot result (KeyError when absent:
the incomplete-join failure), and copy every pivoted entry onto the parent
row (dictColCopy driven by the key list of the pivoted dict itself, so its
membership check never fires). -/
def copyLineItemsToFacVisit (pivotD : Tab Row) (facVisitD : Row) : Except Err Row :=
  match dictGet facVisitD "id" with
  | none => .error (.keyError "id")
  | some fvId =>
    match dictGet pivotD fvId with
    | none => .error (.tableKeyError fvId)
    | some d => .ok (insertAllD facVisitD d)

/-- The map over all facility-visit rows in mapLineItemsToFacVisits,
failing at the first row whose id is absent from the pivot result. -/
def attachAll (pivotD : Tab Row) : List Row → Except Err (List Row)
  | [] => .ok []
  | fv :: rest => do
    let fv2 ← copyLineItemsToFacVisit pivotD fv
    let rest2 ← attachAll pivotD rest
    pure (fv2 :: rest2)

/-- mapLineItemsToFacVisits of the script: pivot the line items, then attach
the pivoted columns to every facility-visit row keyed by its id.  The
column list is always a real list here, so the pass-through branch of the
pivot cannot be hit (modelled as an error). -/
def mapLineItemsToFacVisits (facVisitRows : List Row) (lineItemTable : Tab Entry)
    (keyColName : String) (distinctCodeList : List String) (desiredCols : List String)
    (colRenameFn : String → String) : Except Err (List Row) := do
  let pv ← pivotLineItems lineItemTable keyColName distinctCodeList (some desiredCols)
    (some colRenameFn)
  match pv with
  | .pivoted pivotD => attachAll pivotD facVisitRows
  | .table _ => .error .attributeError

/-- C6: for every list of parent rows (each carrying an id) and every pivot
result (a dict of dicts), the attach pass fails with a lookup error naming
an absent parent id as soon as some parent id is missing from the pivot
result, and succeeds when every parent id is present, copying all pivoted
entries onto each parent row (pivoted entries win, every other field of the
row is kept). -/
theorem attachAll_join_check (p : Tab Row) (rows : List Row)
    (hids : ∀ fv ∈ rows, (dictGet fv "id").isSome)
    (hnd : ∀ pe ∈ p, (dictKeys pe.2).Nodup) :
    ((∃ fv ∈ rows, ∃ i, dictGet fv "id" = some i ∧ dictGet p i = none) →
      ∃ i, attachAll p rows = .error (.tableKeyError i) ∧ dictGet p i = none ∧
        ∃ fv ∈ rows, dictGet fv "id" = some i) ∧
    ((∀ fv ∈ rows, ∀ i, dictGet fv "id" = some i → (dictGet p i).isSome) →
      ∃ out, attachAll p rows = .ok out ∧ out.length = rows.length ∧
        ∀ n (hn : n < rows.length), ∀ i d, dictGet rows[n] "id" = some i →
          dictGet p i = some d →
          ∃ fv2, out[n]? = some fv2 ∧
            ∀ k, dictGet fv2 k = (dictGet d k).or (dictGet rows[n] k)) := by
  induction rows with
  | nil =>
    constructor
    · rintro ⟨fv, hmem, _⟩; simp at hmem
    · intro _; exact ⟨[], rfl, rfl, fun n hn => by simp at hn⟩
  | cons fv rest ih =>
    have hfv : (dictGet fv "id").isSome := hids fv (List.mem_cons_self _ _)
    obtain ⟨i0, hi0⟩ := Option.isSome_iff_exists.mp hfv
    have hidrest : ∀ q ∈ rest, (dictGet q "id").isSome :=
      fun q hq => hids q (List.mem_cons_of_mem _ hq)
    obtain ⟨ihErr, ihOk⟩ := ih hidrest
    constructor
    · rintro ⟨q, hqmem, i, hqi, hpi⟩
      rcases List.mem_cons.mp hqmem with h | h
      · subst h
        have hii : i = i0 := by rw [hi0] at hqi; exact (Option.some.inj hqi).symm
        subst hii
        refine ⟨i, ?_, hpi, q, List.mem_cons_self _ _, hqi⟩
        simp only [attachAll, copyLineItemsToFacVisit, hi0, hpi]
        rfl
      · cases hp0 : dictGet p i0 with
        | none =>
          refine ⟨i0, ?_, hp0, fv, List.mem_cons_self _ _, hi0⟩
          simp only [attachAll, copyLineItemsToFacVisit, hi0, hp0]
          rfl
        | some d0 =>
          obtain ⟨j, herr, hj, q2, hq2, hq2i⟩ := ihErr ⟨q, h, i, hqi, hpi⟩
          refine ⟨j, ?_, hj, q2, List.mem_cons_of_mem _ hq2, hq2i⟩
          simp only [attachAll, copyLineItemsToFacVisit, hi0, hp0, exceptBindOk, herr]
          rfl
    · intro hpres
      have hp0 : (dictGet p i0).isSome := hpres fv (List.mem_cons_self _ _) i0 hi0
      obtain ⟨d0, hd0⟩ := Option.isSome_iff_exists.mp hp0
      obtain ⟨out, hout, hlen, hidx⟩ :=
        ihOk (fun q hq i hi => hpres q (List.mem_cons_of_mem _ hq) i hi)
      refine ⟨insertAllD fv d0 :: out, ?_, by simp [hlen], ?_⟩
      · simp only [attachAll, copyLineItemsToFacVisit, hi0, hd0, exceptBindOk, hout]
        rfl
      · intro n hn i d hi hd
        cases n with
        | zero =>
          simp only [List.getElem_cons_zero] at hi
          have hii : i = i0 := by rw [hi0] at hi; exact (Option.some.inj hi).symm
          subst hii
          have hdd : d = d0 := by rw [hd0] at hd; exact (Option.some.inj hd).symm
          subst hdd
          refine ⟨insertAllD fv d, by simp, fun k => ?_⟩
          obtain ⟨q, hqmem, _, hq2⟩ := dictGet_mem p i d hd
          have hqnd : (dictKeys q.2).Nodup := hnd q hqmem
          rw [List.getElem_cons_zero]
          subst hq2
          exact dictGet_insertAllD q.2 (by simpa [dictKeys] using hqnd) fv k
        | succ m =>
          simp only [List.length_cons, Nat.succ_lt_succ_iff] at hn
          simp only [List.getElem_cons_succ] at hi ⊢
          obtain ⟨fv2, hfv2, hkk⟩ := hidx m hn i d hi hd
          exact ⟨fv2, by simpa using hfv2, hkk⟩

/-- Witness for C6: one parent row with id 1; with the id present in the
pivot result the pass succeeds and copies the pivoted entry, and the
failure branch is vacuously available. -/
theorem attachAll_join_check_witness :
    (∀ fv ∈ [[("id", Value.int 1), ("visited", Value.int 1)]], (dictGet fv "id").isSome) ∧
      (∀ pe ∈ [(Value.int 1, [("epi_x", Value.int 7)])], (dictKeys pe.2).Nodup) ∧
      (((∃ fv ∈ [[("id", Value.int 1), ("visited", Value.int 1)]], ∃ i,
          dictGet fv "id" = some i ∧
            dictGet [(Value.int 1, [("epi_x", Value.int 7)])] i = none) →
        ∃ i, attachAll [(Value.int 1, [("epi_x", Value.int 7)])]
            [[("id", Value.int 1), ("visited", Value.int 1)]] = .error (.tableKeyError i) ∧
          dictGet [(Value.int 1, [("epi_x", Value.int 7)])] i = none ∧
          ∃ fv ∈ [[("id", Value.int 1), ("visited", Value.int 1)]],
            dictGet fv "id" = some i) ∧
      ((∀ fv ∈ [[("id", Value.int 1), ("visited", Value.int 1)]], ∀ i,
          dictGet fv "id" = some i →
            (dictGet [(Value.int 1, [("epi_x", Value.int 7)])] i).isSome) →
        ∃ out, attachAll [(Value.int 1, [("epi_x", Value.int 7)])]
            [[("id", Value.int 1), ("visited", Value.int 1)]] = .ok out ∧
          out.length = [[("id", Value.int 1), ("visited", Value.int 1)]].length ∧
          ∀ n (hn : n < [[("id", Value.int 1), ("visited", Value.int 1)]].length), ∀ i d,
            dictGet [[("id", Value.int 1), ("visited", Value.int 1)]][n] "id" = some i →
            dictGet [(Value.int 1, [("epi_x", Value.int 7)])] i = some d →
            ∃ fv2, out[n]? = some fv2 ∧
              ∀ k, dictGet fv2 k = (dictGet d k).or
                (dictGet [[("id", Value.int 1), ("visited", Value.int 1)]][n] k))) :=
  ⟨by decide, by decide,
    attachAll_join_check [(Value.int 1, [("epi_x", Value.int 7)])]
      [[("id", Value.int 1), ("visited", Value.int 1)]] (by decide) (by decide)⟩

/-- Lexicographic comparison of character lists by code point, the order
Python uses on the visit-code strings. -/
def charListLe : List Char → List Char → Bool
  | [], _ => true
  | _ :: _, [] => false
  | a :: as, b :: bs =>
    if a.toNat < b.toNat then true
    else if b.toNat < a.toNat then false
    else charListLe as bs

/-- Rank of a value constructor, standing in for the fixed cross-type order
CPython 2 applies when comparing values of different types (None below
numbers below dates below strings). -/
def Value.rank : Value → Nat
  | .null => 0
  | .int _ => 1
  | .date _ => 2
  | .str _ => 3

/-- Total comparison on scalar values modelling the Python 2 sort order:
within one type the natural order of that type, across types the fixed
rank.  Visit codes are strings in practice, where this is the byte order
Python uses. -/
def valueLe (a b : Value) : Bool :=
  match a, b with
  | .int x, .int y => decide (x ≤ y)
  | .date x, .date y => decide (x ≤ y)
  | .str x, .str y => charListLe x.data y.data
  | _, _ => decide (a.rank ≤ b.rank)

/-- Comparison of two index-tagged visit rows by the visit_code sort key of
generateLastVisitDate. -/
def visitCodeLe (a b : Nat × Row) : Bool :=
  valueLe ((dictGet a.2 "visit_code").getD Value.null)
    ((dictGet b.2 "visit_code").getD Value.null)

/-- Stable insertion of an element into a sorted list: the element goes in
front of the first entry it is less-or-equal to, hence behind every earlier
equal entry, matching the stability of the Python sort. -/
def insertSorted {α : Type} (le : α → α → Bool) (x : α) : List α → List α
  | [] => [x]
  | y :: ys => if le x y then x :: y :: ys else y :: insertSorted le x ys

/-- Stable sort modelling sorted(visitRows, key): any stable sort computes
the same list for a total preorder, so insertion sort stands in for the
Python sort. -/
def insertionSort {α : Type} (le : α → α → Bool) : List α → List α
  | [] => []
  | x :: xs => insertSorted le x (insertionSort le xs)

theorem insertSorted_perm {α : Type} (le : α → α → Bool) (x : α) (l : List α) :
    (insertSorted le x l).Perm (x :: l) := by
  induction l with
  | nil => exact List.Perm.refl _
  | cons y ys ih =>
    unfold insertSorted
    by_cases h : le x y
    · rw [if_pos h]
    · rw [if_neg h]
      exact (ih.cons y).trans (List.Perm.swap x y ys)

theorem insertionSort_perm {α : Type} (le : α → α → Bool) (l : List α) :
    (insertionSort le l).Perm l := by
  induction l with
  | nil => exact List.Perm.refl _
  | cons x xs ih =>
    exact (insertSorted_perm le x (insertionSort le xs)).trans (ih.cons x)

/-- Sorted copy of the index-tagged visit rows, chronological ascending by
visit_code (which groups by facility and then period). -/
def sortVisits (visitRows : List Row) : List (Nat × Row) :=
  insertionSort visitCodeLe visitRows.enum

/-- Loop of generateLastVisitDate over the sorted rows, threading the
facility-to-last-visit-date map and recording, per original row index, the
value assigned to visited_last_date: the current map value for the facility
(null when none), with the map updated afterwards only when the row has a
non-null visited_date. -/
def lastVisitFold : List (Nat × Row) → Tab Value → Except Err (List (Nat × Value))
  | [], _ => .ok []
  | (i, row) :: rest, lastVisitMap =>
    match dictGet row "facility_id" with
    | none => .error (.keyError "facility_id")
    | some mapKey =>
      match dictGet row "visited_date" with
      | none => .error (.keyError "visited_date")
      | some vd => do
        let out ← lastVisitFold rest
          (if vd = Value.null then lastVisitMap else dictInsert lastVisitMap mapKey vd)
        pure ((i, (dictGet lastVisitMap mapKey).getD Value.null) :: out)

/-- generateLastVisitDate of the script: sort the rows ascending by
visit_code (Python raises KeyError while sorting when a row lacks the key),
run the map-threading pass in sorted order, and write each computed value
into the visited_last_date field of its row, the list keeping its original
order (the script mutates the row dicts in place). -/
def generateLastVisitDate (visitRows : List Row) : Except Err (List Row) :=
  if visitRows.all (fun r => (dictGet r "visit_code").isSome) then do
    let assigns ← lastVisitFold (sortVisits visitRows) []
    pure (visitRows.enum.map (fun p =>
      dictInsert p.2 "visited_last_date" ((dictGet assigns p.1).getD Value.null)))
  else .error (.keyError "visit_code")

/-- Specified previous-visit value: the visited_date of the last row among
the already-processed rows that belongs to the given facility and actually
recorded a visit (non-null visited_date), or null when there is none. -/
def specPrevVisit (pre : List (Nat × Row)) (fac : Value) : Value :=
  match (pre.filter (fun q =>
      decide (dictGet q.2 "facility_id" = some fac) &&
      (match dictGet q.2 "visited_date" with
       | some vd => !decide (vd = Value.null)
       | none => false))).getLast? with
  | none => Value.null
  | some q => (dictGet q.2 "visited_date").getD Value.null

theorem specPrevVisit_append (pre : List (Nat × Row)) (q : Nat × Row) (fac : Value) :
    specPrevVisit (pre ++ [q]) fac =
      if (decide (dictGet q.2 "facility_id" = some fac) &&
          (match dictGet q.2 "visited_date" with
           | some vd => !decide (vd = Value.null)
           | none => false) : Bool)
      then (dictGet q.2 "visited_date").getD Value.null
      else specPrevVisit pre fac := by
  unfold specPrevVisit
  rw [List.filter_append]
  by_cases h : (decide (dictGet q.2 "facility_id" = some fac) &&
      (match dictGet q.2 "visited_date" with
       | some vd => !decide (vd = Value.null)
       | none => false) : Bool) = true
  · rw [if_pos h]
    simp only [List.filter_cons, h, List.filter_nil, if_true]
    rw [List.getLast?_append]
    simp [Option.or]
  · rw [if_neg h]
    have : List.filter (fun q => decide (dictGet q.2 "facility_id" = some fac) &&
        (match dictGet q.2 "visited_date" with
         | some vd => !decide (vd = Value.null)
         | none => false)) [q] = [] := by
      simp only [List.filter_cons, List.filter_nil]
      rw [if_neg h]
    rw [this, List.append_nil]

/-- Invariant-carrying characterization of the map-threading pass: provided
the running map agrees with the specified previous-visit value over the
rows already processed, a successful pass assigns to each remaining row, in
order, the specified value over processed-plus-earlier-remaining rows. -/
theorem lastVisitFold_char (l : List (Nat × Row)) :
    ∀ (m : Tab Value) (pre : List (Nat × Row)),
      (∀ f, (dictGet m f).getD Value.null = specPrevVisit pre f) →
      ∀ out, lastVisitFold l m = .ok out →
        out.map (fun p => p.1) = l.map (fun p => p.1) ∧
        ∀ n (hn : n < l.length), out[n]? =
          some (l[n].1, specPrevVisit (pre ++ l.take n)
            ((dictGet l[n].2 "facility_id").getD Value.null)) := by
  induction l with
  | nil =>
    intro m pre _ out hok
    have : out = [] := by
      simpa [lastVisitFold] using hok.symm
    subst this
    exact ⟨rfl, fun n hn => by simp at hn⟩
  | cons p rest ih =>
    intro m pre hinv out hok
    obtain ⟨i, row⟩ := p
    cases hfac : dictGet row "facility_id" with
    | none => rw [lastVisitFold, hfac] at hok; exact Except.noConfusion hok
    | some mapKey =>
      cases hvd : dictGet row "visited_date" with
      | none => rw [lastVisitFold, hfac, hvd] at hok; exact Except.noConfusion hok
      | some vd =>
        simp only [lastVisitFold, hfac, hvd] at hok
        cases hrest : lastVisitFold rest
            (if vd = Value.null then m else dictInsert m mapKey vd) with
        | error err => rw [hrest, exceptBindErr] at hok; exact Except.noConfusion hok
        | ok out2 =>
          rw [hrest, exceptBindOk] at hok
          have hout : out = (i, (dictGet m mapKey).getD Value.null) :: out2 :=
            (Except.ok.inj hok).symm
          subst hout
          have hinv2 : ∀ f,
              (dictGet (if vd = Value.null then m else dictInsert m mapKey vd) f).getD
                Value.null = specPrevVisit (pre ++ [(i, row)]) f := by
            intro f
            rw [specPrevVisit_append]
            by_cases hnull : vd = Value.null
            · have hcond : (decide (dictGet row "facility_id" = some f) &&
                  (match dictGet row "visited_date" with
                   | some vd => !decide (vd = Value.null)
                   | none => false) : Bool) = false := by
                simp [hvd, hnull]
              rw [if_pos hnull, hcond]
              simp only [Bool.false_eq_true, if_false]
              exact hinv f
            · rw [if_neg hnull]
              by_cases hf : f = mapKey
              · subst hf
                have hcond : (decide (dictGet row "facility_id" = some f) &&
                    (match dictGet row "visited_date" with
                     | some vd => !decide (vd = Value.null)
                     | none => false) : Bool) = true := by
                  simp [hvd, hnull, hfac]
                rw [hcond]
                simp only [if_true]
                rw [dictGet_insert_self, hvd]
              · have hcond : (decide (dictGet row "facility_id" = some f) &&
                    (match dictGet row "visited_date" with
                     | some vd => !decide (vd = Value.null)
                     | none => false) : Bool) = false := by
                  simp only [hfac, Bool.and_eq_false_iff]
                  left
                  simp only [decide_eq_false_iff_not]
                  intro hc
                  exact hf (Option.some.inj hc).symm
                rw [hcond]
                simp only [Bool.false_eq_true, if_false]
                rw [dictGet_insert_ne _ _ _ _ hf]
                exact hinv f
          obtain ⟨hmap, hidx⟩ := ih (if vd = Value.null then m else dictInsert m mapKey vd)
            (pre ++ [(i, row)]) hinv2 out2 hrest
          constructor
          · simp [hmap]
          · intro n hn
            cases n with
            | zero =>
              simp only [List.getElem?_cons_zero, List.getElem_cons_zero, List.take_zero,
                List.append_nil, Option.some.injEq, Prod.mk.injEq, true_and, hfac,
                Option.getD_some]
              exact hinv mapKey
            | succ k =>
              simp only [List.length_cons, Nat.succ_lt_succ_iff] at hn
              simp only [List.getElem?_cons_succ, List.getElem_cons_succ]
              rw [hidx k hn]
              rw [show List.take (k + 1) ((i, row) :: rest) = (i, row) :: List.take k rest from
                rfl]
              rw [show pre ++ ((i, row) :: List.take k rest) =
                (pre ++ [(i, row)]) ++ List.take k rest by simp]

/-- Shape of a successful generateLastVisitDate run: the assignments come
from the pass over the sorted rows, and the output keeps the original row
order, writing the assignment of each row (found by its original index)
into visited_last_date. -/
theorem generateLastVisitDate_shape (rows out : List Row)
    (hok : generateLastVisitDate rows = .ok out) :
    ∃ assigns, lastVisitFold (sortVisits rows) [] = .ok assigns ∧
      out = rows.enum.map (fun p =>
        dictInsert p.2 "visited_last_date" ((dictGet assigns p.1).getD Value.null)) := by
  unfold generateLastVisitDate at hok
  by_cases hall : (rows.all (fun r => (dictGet r "visit_code").isSome)) = true
  · rw [if_pos hall] at hok
    cases hf : lastVisitFold (sortVisits rows) [] with
    | error err => rw [hf, exceptBindErr] at hok; exact Except.noConfusion hok
    | ok assigns =>
      rw [hf, exceptBindOk] at hok
      exact ⟨assigns, rfl, (Except.ok.inj hok).symm⟩
  · rw [if_neg hall] at hok
    exact Except.noConfusion hok

/-- The tags of the sorted rows are the pairwise distinct original row
indices. -/
theorem sortVisits_tags_nodup (rows : List Row) :
    ((sortVisits rows).map (fun p => p.1)).Nodup := by
  have hperm : ((sortVisits rows).map (fun p => p.1)).Perm
      (rows.enum.map (fun p => p.1)) :=
    (insertionSort_perm visitCodeLe rows.enum).map _
  have henum : rows.enum.map (fun p => p.1) = List.range rows.length :=
    List.enum_map_fst rows
  exact (hperm.trans (henum ▸ List.Perm.refl _)).symm.nodup (henum ▸ List.nodup_range _)

/-- C4: after a successful temporal pass, the row found at position n of the
per-entity chronological order induced by the visit_code sort key keeps its
original place in the list and carries, in visited_last_date, the
visited_date of the most recent earlier sorted row of the same facility
whose visited_date is non-null, or null when no such earlier row exists
(rows with a null visited_date receive the running value but never update
it, as specPrevVisit ignores them). -/
theorem generateLastVisitDate_prev_visit (rows out : List Row)
    (hok : generateLastVisitDate rows = .ok out) :
    out.length = rows.length ∧
    ∀ n (hn : n < (sortVisits rows).length),
      ∃ i r, (sortVisits rows)[n] = (i, r) ∧ rows[i]? = some r ∧
        out[i]? = some (dictInsert r "visited_last_date"
          (specPrevVisit ((sortVisits rows).take n)
            ((dictGet r "facility_id").getD Value.null))) := by
  obtain ⟨assigns, hfold, hout⟩ := generateLastVisitDate_shape rows out hok
  have hlen : out.length = rows.length := by
    rw [hout, List.length_map, List.enum_length]
  refine ⟨hlen, fun n hn => ?_⟩
  obtain ⟨hmap, hidx⟩ := lastVisitFold_char (sortVisits rows) [] []
    (fun f => by simp [dictGet, specPrevVisit]) assigns hfold
  have hidxn := hidx n hn
  rw [List.nil_append] at hidxn
  have hqmem : (sortVisits rows)[n] ∈ sortVisits rows :=
    List.getElem?_mem (List.getElem?_eq_getElem hn)
  have hqenum : (sortVisits rows)[n] ∈ rows.enum :=
    ((insertionSort_perm visitCodeLe rows.enum).mem_iff).mp hqmem
  have hrowsi : rows[((sortVisits rows)[n]).1]? = some ((sortVisits rows)[n]).2 :=
    List.mem_enum_iff_getElem?.mp hqenum
  have hpairmem : ((sortVisits rows)[n].1,
      specPrevVisit ((sortVisits rows).take n)
        ((dictGet ((sortVisits rows)[n]).2 "facility_id").getD Value.null)) ∈ assigns :=
    List.getElem?_mem hidxn
  have handup : (assigns.map (fun p => p.1)).Nodup := by
    rw [hmap]
    exact sortVisits_tags_nodup rows
  have hassign : dictGet assigns ((sortVisits rows)[n]).1 =
      some (specPrevVisit ((sortVisits rows).take n)
        ((dictGet ((sortVisits rows)[n]).2 "facility_id").getD Value.null)) :=
    dictGet_of_nodup_mem assigns _ _ handup hpairmem
  refine ⟨((sortVisits rows)[n]).1, ((sortVisits rows)[n]).2, ?_, hrowsi, ?_⟩
  · exact rfl
  · rw [hout, List.getElem?_map, List.getElem?_enum, hrowsi]
    simp only [Option.map_some']
    rw [hassign]
    rfl

/-- Visit history of one facility used in the temporal examples: period 1
visited on date 10, period 2 not visited (null date), period 3 visited on
date 30. -/
def exVisitRows : List Row :=
  [[("visit_code", Value.str "F1-2014-01"), ("facility_id", Value.int 1),
    ("visited_date", Value.date 10)],
   [("visit_code", Value.str "F1-2014-02"), ("facility_id", Value.int 1),
    ("visited_date", Value.null)],
   [("visit_code", Value.str "F1-2014-03"), ("facility_id", Value.int 1),
    ("visited_date", Value.date 30)]]

/-- Output of the temporal pass on exVisitRows: previous-visit dates null,
date 10, date 10 (the not-visited period 2 receives the running value and
does not advance it). -/
def exVisitOut : List Row :=
  [[("visit_code", Value.str "F1-2014-01"), ("facility_id", Value.int 1),
    ("visited_date", Value.date 10), ("visited_last_date", Value.null)],
   [("visit_code", Value.str "F1-2014-02"), ("facility_id", Value.int 1),
    ("visited_date", Value.null), ("visited_last_date", Value.date 10)],
   [("visit_code", Value.str "F1-2014-03"), ("facility_id", Value.int 1),
    ("visited_date", Value.date 30), ("visited_last_date", Value.date 10)]]

/-- Witness for C4 at the concrete three-period history of the claim: the
computed previous-visit-date sequence is null, date 10, date 10. -/
theorem generateLastVisitDate_prev_visit_witness :
    generateLastVisitDate exVisitRows = .ok exVisitOut ∧
      exVisitOut.map (fun r => (dictGet r "visited_last_date").getD Value.null) =
        [Value.null, Value.date 10, Value.date 10] ∧
      (exVisitOut.length = exVisitRows.length ∧
        ∀ n (hn : n < (sortVisits exVisitRows).length),
          ∃ i r, (sortVisits exVisitRows)[n] = (i, r) ∧ exVisitRows[i]? = some r ∧
            exVisitOut[i]? = some (dictInsert r "visited_last_date"
              (specPrevVisit ((sortVisits exVisitRows).take n)
                ((dictGet r "facility_id").getD Value.null)))) :=
  ⟨rfl, by decide, generateLastVisitDate_prev_visit exVisitRows exVisitOut rfl⟩

/-- C10: a successful temporal pass only touches the visited_last_date field
of each row: the row count and the order of the list are unchanged, and
every key other than visited_last_date keeps its value in every row. -/
theorem generateLastVisitDate_frame (rows out : List Row)
    (hok : generateLastVisitDate rows = .ok out) :
    out.length = rows.length ∧
    ∀ i (hi : i < rows.length), ∃ r2, out[i]? = some r2 ∧
      ∀ k, k ≠ "visited_last_date" → dictGet r2 k = dictGet rows[i] k := by
  obtain ⟨assigns, _, hout⟩ := generateLastVisitDate_shape rows out hok
  have hlen : out.length = rows.length := by
    rw [hout, List.length_map, List.enum_length]
  refine ⟨hlen, fun i hi => ?_⟩
  have hrowsi : rows[i]? = some rows[i] := List.getElem?_eq_getElem hi
  refine ⟨dictInsert rows[i] "visited_last_date" ((dictGet assigns i).getD Value.null),
    ?_, fun k hk => ?_⟩
  · rw [hout, List.getElem?_map, List.getElem?_enum, hrowsi]
    rfl
  · exact dictGet_insert_ne _ _ _ _ hk

/-- Witness for C10 at the concrete three-period history. -/
theorem generateLastVisitDate_frame_witness :
    exVisitOut.length = exVisitRows.length ∧
    ∀ i (hi : i < exVisitRows.length), ∃ r2, exVisitOut[i]? = some r2 ∧
      ∀ k, k ≠ "visited_last_date" → dictGet r2 k = dictGet exVisitRows[i] k :=
  generateLastVisitDate_frame exVisitRows exVisitOut rfl

/-- Loop of geoZoneFlatten with an explicit iteration bound: the script runs
an unguarded while loop following parent pointers, so the model charges one
unit of fuel per iteration and reports exhaustion as an error (the
divergence surrogate).  Each visited zone is stored under its geographic
level code (overwriting any zone previously stored under the same code),
then the walk moves to the parent zone, stopping when the parent id has no
entry in the table. -/
def geoZoneFlattenAux : Nat → Option Row → Tab Row → Tab Row → Except Err (Tab Row)
  | _, none, _, gz => .ok gz
  | 0, some _, _, _ => .error .outOfFuel
  | fuel + 1, some geoZone, geoZoneTable, gz =>
    match dictGet geoZone "geo_level_code" with
    | none => .error (.keyError "geo_level_code")
    | some code =>
      match dictGet geoZone "parentid" with
      | none => .error (.keyError "parentid")
      | some parent =>
        geoZoneFlattenAux fuel (dictGet geoZoneTable parent) geoZoneTable
          (dictInsert gz code geoZone)

/-- geoZoneFlatten of the script, with fuel bounding the number of loop
iterations. -/
def geoZoneFlatten (fuel : Nat) (geoZone : Option Row) (geoZoneTable : Tab Row) :
    Except Err (Tab Row) :=
  geoZoneFlattenAux fuel geoZone geoZoneTable []

/-- Acyclicity precondition for the hierarchy walk: starting from the given
zone, following parent pointers reaches the end of the chain (a missing
zone) within n hops, and every zone visited on the way carries its level
code and parent id fields. -/
def chainOk : Nat → Option Row → Tab Row → Bool
  | _, none, _ => true
  | 0, some _, _ => false
  | fuel + 1, some geoZone, table =>
    (dictGet geoZone "geo_level_code").isSome &&
      match dictGet geoZone "parentid" with
      | none => false
      | some parent => chainOk fuel (dictGet table parent) table

/-- Zones visited by the hierarchy walk, leaf first, within n hops. -/
def chainNodes : Nat → Option Row → Tab Row → List Row
  | _, none, _ => []
  | 0, some _, _ => []
  | fuel + 1, some geoZone, table =>
    match dictGet geoZone "parentid" with
    | none => [geoZone]
    | some parent => geoZone :: chainNodes fuel (dictGet table parent) table

/-- Under the acyclicity precondition the walk succeeds for every sufficient
fuel value with one fixed result, and that result stores, under each level
code, the last visited zone carrying that code, on top of the accumulator. -/
theorem geoZoneFlattenAux_char (n : Nat) (gzStart : Option Row) (table : Tab Row)
    (h : chainOk n gzStart table = true) (acc : Tab Row) :
    ∃ m, (∀ fuel, n ≤ fuel → geoZoneFlattenAux fuel gzStart table acc = .ok m) ∧
      ∀ c, dictGet m c =
        (((chainNodes n gzStart table).filter
          (fun r => decide (dictGet r "geo_level_code" = some c))).getLast?).or
          (dictGet acc c) := by
  induction n generalizing gzStart acc with
  | zero =>
    cases gzStart with
    | none =>
      refine ⟨acc, fun fuel _ => ?_, fun c => ?_⟩
      · cases fuel <;> rfl
      · simp [chainNodes]
    | some r => simp [chainOk] at h
  | succ n ih =>
    cases gzStart with
    | none =>
      refine ⟨acc, fun fuel _ => ?_, fun c => ?_⟩
      · cases fuel <;> rfl
      · simp [chainNodes]
    | some r =>
      simp only [chainOk, Bool.and_eq_true] at h
      obtain ⟨hcode, hrest⟩ := h
      obtain ⟨code, hcodeEq⟩ := Option.isSome_iff_exists.mp hcode
      cases hpar : dictGet r "parentid" with
      | none => rw [hpar] at hrest; exact absurd hrest (by simp)
      | some parent =>
        rw [hpar] at hrest
        obtain ⟨m, hok, hchar⟩ := ih (dictGet table parent) hrest (dictInsert acc code r)
        refine ⟨m, fun fuel hfuel => ?_, fun c => ?_⟩
        · cases fuel with
          | zero => omega
          | succ f =>
            simp only [geoZoneFlattenAux, hcodeEq, hpar]
            exact hok f (Nat.le_of_succ_le_succ hfuel)
        · rw [hchar c]
          simp only [chainNodes, hpar, List.filter_cons]
          by_cases hc : c = code
          · subst hc
            rw [if_pos (by simp [hcodeEq])]
            rw [dictGet_insert_self]
            rw [show (r :: List.filter (fun r => decide (dictGet r "geo_level_code" = some c))
                (chainNodes n (dictGet table parent) table)) = [r] ++ List.filter
                (fun r => decide (dictGet r "geo_level_code" = some c))
                (chainNodes n (dictGet table parent) table) from rfl]
            rw [List.getLast?_append]
            cases hl : (List.filter (fun r => decide (dictGet r "geo_level_code" = some c))
                (chainNodes n (dictGet table parent) table)).getLast? with
            | none => simp [Option.or]
            | some x => simp [Option.or]
          · rw [if_neg (by simp [hcodeEq]; intro hcc; exact hc hcc.symm)]
            rw [dictGet_insert_ne _ _ _ _ hc]

/-- C7: under the precondition that following parent pointers from the leaf
reaches a zone with no table entry within n hops (no cycle) and every
visited zone is well formed, the hierarchy flattening terminates: one fixed
mapping is returned for every fuel bound of at least n, so the unguarded
while loop of the script stops. -/
theorem geoZoneFlatten_terminates (n : Nat) (leaf : Option Row) (table : Tab Row)
    (h : chainOk n leaf table = true) :
    ∃ m, ∀ fuel, n ≤ fuel → geoZoneFlatten fuel leaf table = .ok m := by
  obtain ⟨m, hok, _⟩ := geoZoneFlattenAux_char n leaf table h []
  exact ⟨m, hok⟩

/-- Leaf zone used in the concrete hierarchy examples: level code L, parent
zone id 2. -/
def exLeafZone : Row := [("id", Value.int 1), ("geo_level_code", Value.str "L"),
  ("parentid", Value.int 2)]

/-- Parent zone sharing level code L with the leaf; its own parent id is
null, ending the walk. -/
def exParentZone : Row := [("id", Value.int 2), ("geo_level_code", Value.str "L"),
  ("parentid", Value.null)]

/-- Hierarchy table holding only the parent zone. -/
def exGeoTable : Tab Row := [(Value.int 2, exParentZone)]

/-- Witness for C7 at the concrete two-zone hierarchy. -/
theorem geoZoneFlatten_terminates_witness :
    chainOk 2 (some exLeafZone) exGeoTable = true ∧
      ∃ m, ∀ fuel, 2 ≤ fuel → geoZoneFlatten fuel (some exLeafZone) exGeoTable = .ok m :=
  ⟨by decide, geoZoneFlatten_terminates 2 (some exLeafZone) exGeoTable (by decide)⟩

/-- Counterexample to C2 as stated: when the leaf and its ancestor share the
level label L, the flattened mapping holds the farther (last-visited)
ancestor, not the nearer (first-visited) leaf. -/
theorem geoZoneFlatten_keeps_last_not_first :
    geoZoneFlatten 5 (some exLeafZone) exGeoTable = .ok [(Value.str "L", exParentZone)] ∧
      dictGet [(Value.str "L", exParentZone)] (Value.str "L") = some exParentZone ∧
      exParentZone ≠ exLeafZone := by
  refine ⟨rfl, by decide, by decide⟩

/-- C2 amended: when the walk visits two ancestors sharing a level label,
the flattened mapping keeps the farther (last-visited) node for that label:
each level code maps to the last zone visited that carries it. -/
theorem geoZoneFlatten_level_label_last_wins (n : Nat) (leaf : Option Row) (table : Tab Row)
    (h : chainOk n leaf table = true) :
    ∃ m, (∀ fuel, n ≤ fuel → geoZoneFlatten fuel leaf table = .ok m) ∧
      ∀ c, dictGet m c =
        ((chainNodes n leaf table).filter
          (fun r => decide (dictGet r "geo_level_code" = some c))).getLast? := by
  obtain ⟨m, hok, hchar⟩ := geoZoneFlattenAux_char n leaf table h []
  refine ⟨m, hok, fun c => ?_⟩
  rw [hchar c]
  simp [dictGet]

/-- Witness for the amended C2 at the concrete two-zone hierarchy. -/
theorem geoZoneFlatten_level_label_last_wins_witness :
    chainOk 2 (some exLeafZone) exGeoTable = true ∧
      ∃ m, (∀ fuel, 2 ≤ fuel → geoZoneFlatten fuel (some exLeafZone) exGeoTable = .ok m) ∧
        ∀ c, dictGet m c =
          ((chainNodes 2 (some exLeafZone) exGeoTable).filter
            (fun r => decide (dictGet r "geo_level_code" = some c))).getLast? :=
  ⟨by decide, geoZoneFlatten_level_label_last_wins 2 (some exLeafZone) exGeoTable (by decide)⟩

/-- Split of a character list at the leftmost occurrence of a pattern: the
part before the occurrence and the part after it, none when the pattern
does not occur.  This is the scanning step of re.sub with a plain-text
pattern. -/
def splitOnFirst (p : List Char) : List Char → Option (List Char × List Char)
  | [] => if p.isPrefixOf [] then some ([], []) else none
  | c :: s2 =>
    if p.isPrefixOf (c :: s2) then some ([], (c :: s2).drop p.length)
    else (splitOnFirst p s2).map (fun q => (c :: q.1, q.2))

theorem splitOnFirst_eq_append (p : List Char) :
    ∀ s b a, splitOnFirst p s = some (b, a) → s = b ++ p ++ a := by
  intro s
  induction s with
  | nil =>
    intro b a h
    by_cases hp : p.isPrefixOf ([] : List Char) = true
    · have hpe : p = [] := by
        simpa [List.prefix_nil] using List.isPrefixOf_iff_prefix.mp hp
      simp only [splitOnFirst, if_pos hp] at h
      obtain ⟨hb, ha⟩ := Prod.mk.injEq _ _ _ _ ▸ Option.some.inj h
      subst hpe; rw [hb.symm, ha.symm]; rfl
    · simp only [splitOnFirst, if_neg hp] at h
      exact Option.noConfusion h
  | cons c s2 ih =>
    intro b a h
    by_cases hp : p.isPrefixOf (c :: s2) = true
    · simp only [splitOnFirst, if_pos hp] at h
      obtain ⟨u, hu⟩ := List.isPrefixOf_iff_prefix.mp hp
      obtain ⟨hb, ha⟩ := Prod.mk.injEq _ _ _ _ ▸ Option.some.inj h
      rw [hb.symm, ha.symm, List.nil_append]
      rw [show (c :: s2).drop p.length = u from by rw [hu.symm, List.drop_left]]
      exact hu.symm
    · simp only [splitOnFirst, if_neg hp] at h
      cases h2 : splitOnFirst p s2 with
      | none => rw [h2] at h; exact Option.noConfusion h
      | some q =>
        rw [h2] at h
        simp only [Option.map_some'] at h
        obtain ⟨hb, ha⟩ := Prod.mk.injEq _ _ _ _ ▸ Option.some.inj h
        rw [hb.symm, ha.symm]
        have := ih q.1 q.2 (by rw [h2])
        rw [List.cons_append, List.cons_append]
        rw [this.symm]

theorem splitOnFirst_isSome_of_infix (p : List Char) :
    ∀ brk s r, s = brk ++ p ++ r → (splitOnFirst p s).isSome := by
  intro brk
  induction brk with
  | nil =>
    intro s r hs
    rw [List.nil_append] at hs
    have hp : p.isPrefixOf s = true :=
      List.isPrefixOf_iff_prefix.mpr ⟨r, hs.symm⟩
    cases s with
    | nil => simp [splitOnFirst, hp]
    | cons c s2 => simp [splitOnFirst, hp]
  | cons c brk2 ih =>
    intro s r hs
    cases s with
    | nil => exact absurd hs.symm (by simp)
    | cons c2 s2 =>
      rw [List.cons_append, List.cons_append] at hs
      have hc : c2 = c := (List.cons.injEq _ _ _ _ ▸ hs).1
      have hs2 : s2 = brk2 ++ p ++ r := (List.cons.injEq _ _ _ _ ▸ hs).2
      by_cases hp : p.isPrefixOf (c2 :: s2) = true
      · simp [splitOnFirst, hp]
      · simp only [splitOnFirst, if_neg hp]
        have := ih s2 r hs2
        cases h2 : splitOnFirst p s2 with
        | none => rw [h2] at this; exact absurd this (by simp)
        | some q => simp

/-- Prefix of an appended list: either a prefix of the left part, or it
covers the left part and its remainder is a prefix of the right part. -/
theorem prefix_append_cases (p u v : List Char) (h : p <+: u ++ v) :
    p <+: u ∨ (u.length < p.length ∧ p.drop u.length <+: v) := by
  by_cases hle : p.length ≤ u.length
  · left
    have hp : p = (u ++ v).take p.length := List.prefix_iff_eq_take.mp h
    rw [List.take_append_of_le_length hle] at hp
    rw [hp]
    exact List.take_prefix _ _
  · right
    refine ⟨by omega, ?_⟩
    have hup : u <+: p :=
      List.prefix_of_prefix_length_le (List.prefix_append u v) h (by omega)
    have hpu : u ++ p.drop u.length = p := List.prefix_iff_eq_append.mp hup
    obtain ⟨w, hw⟩ := h
    rw [hpu.symm, List.append_assoc] at hw
    have := List.append_cancel_left hw
    exact ⟨w, this⟩

/-- Rule out pattern occurrences that would straddle the boundary between a
left part and a concrete right part: no proper nonempty tail of the pattern
is a prefix of the right part. -/
def noSpan (p v : List Char) : Bool :=
  (List.range p.length).all (fun i => i == 0 || !((p.drop i).isPrefixOf v))

theorem noSpan_spec (p v : List Char) (h : noSpan p v = true) :
    ∀ i, 0 < i → i < p.length → ¬ (p.drop i <+: v) := by
  intro i hpos hlt hpre
  have := List.all_eq_true.mp h i (List.mem_range.mpr hlt)
  simp only [Bool.or_eq_true, beq_iff_eq, Bool.not_eq_true'] at this
  rcases this with h0 | hnp
  · omega
  · rw [List.isPrefixOf_iff_prefix.mpr hpre] at hnp
    exact Bool.noConfusion hnp

/-- The leftmost-occurrence split distributes over append when no occurrence
can straddle the boundary. -/
theorem splitOnFirst_append (p v : List Char) (hp : p ≠ [])
    (hns : noSpan p v = true) :
    ∀ u, splitOnFirst p (u ++ v) =
      match splitOnFirst p u with
      | some q => some (q.1, q.2 ++ v)
      | none => (splitOnFirst p v).map (fun q => (u ++ q.1, q.2)) := by
  intro u
  induction u with
  | nil =>
    have hnil : splitOnFirst p ([] : List Char) = none := by
      have hpp : p.isPrefixOf ([] : List Char) = false := by
        cases hc : p.isPrefixOf ([] : List Char)
        · rfl
        · exact absurd (by simpa [List.prefix_nil] using List.isPrefixOf_iff_prefix.mp hc) hp
      simp [splitOnFirst, hpp]
    rw [hnil, List.nil_append]
    cases h2 : splitOnFirst p v with
    | none => rfl
    | some q => simp
  | cons c u2 ih =>
    rw [List.cons_append]
    by_cases hpre : p.isPrefixOf (c :: u2) = true
    · have hpre2 : p.isPrefixOf (c :: (u2 ++ v)) = true := by
        rw [List.isPrefixOf_iff_prefix] at hpre ⊢
        rw [show c :: (u2 ++ v) = (c :: u2) ++ v from rfl]
        exact hpre.trans (List.prefix_append _ _)
      have hlen : p.length ≤ (c :: u2).length :=
        (List.isPrefixOf_iff_prefix.mp hpre).length_le
      simp only [splitOnFirst, if_pos hpre2, if_pos hpre]
      rw [show c :: (u2 ++ v) = (c :: u2) ++ v from rfl,
        List.drop_append_of_le_length hlen]
    · have hpre2 : p.isPrefixOf (c :: (u2 ++ v)) = false := by
        cases hc : p.isPrefixOf (c :: (u2 ++ v))
        · rfl
        · exfalso
          have hcase := prefix_append_cases p (c :: u2) v
            (by rw [List.cons_append]; exact List.isPrefixOf_iff_prefix.mp hc)
          rcases hcase with hl | ⟨hlt, hdrop⟩
          · exact absurd (List.isPrefixOf_iff_prefix.mpr hl) (by simp [hpre])
          · exact noSpan_spec p v hns (c :: u2).length (by simp) hlt hdrop
      have hunfoldL : splitOnFirst p (c :: (u2 ++ v)) =
          Option.map (fun q => (c :: q.1, q.2)) (splitOnFirst p (u2 ++ v)) := by
        simp only [splitOnFirst]
        rw [if_neg (show ¬ p.isPrefixOf (c :: (u2 ++ v)) = true from by
          rw [hpre2]; exact Bool.false_ne_true)]
      have hunfoldR : splitOnFirst p (c :: u2) =
          Option.map (fun q => (c :: q.1, q.2)) (splitOnFirst p u2) := by
        simp only [splitOnFirst]
        rw [if_neg hpre]
      rw [hunfoldL, ih, hunfoldR]
      cases h2 : splitOnFirst p u2 with
      | none =>
        cases h3 : splitOnFirst p v with
        | none => rfl
        | some q => simp
      | some q => simp

theorem splitOnFirst_nil (p : List Char) (hp : p ≠ []) :
    splitOnFirst p ([] : List Char) = none := by
  have hpp : p.isPrefixOf ([] : List Char) = false := by
    cases hc : p.isPrefixOf ([] : List Char)
    · rfl
    · exact absurd (by simpa [List.prefix_nil] using List.isPrefixOf_iff_prefix.mp hc) hp
  simp [splitOnFirst, hpp]

theorem splitOnFirst_shrinks (p s b a : List Char) (hp : p ≠ [])
    (h : splitOnFirst p s = some (b, a)) : a.length < s.length := by
  have hs := splitOnFirst_eq_append p s b a h
  have hplen : 0 < p.length := List.length_pos.mpr hp
  rw [hs]
  simp only [List.length_append]
  omega

/-- Bounded rewriting loop of re.sub with a plain pattern: replace the
leftmost occurrence and keep scanning after it.  The fuel bounds the number
of replacements; each occurrence consumes at least one character, so a fuel
of the string length always suffices. -/
def replaceAllFuel (p t : List Char) : Nat → List Char → List Char
  | 0, s => s
  | fuel + 1, s =>
    match splitOnFirst p s with
    | none => s
    | some q => q.1 ++ t ++ replaceAllFuel p t fuel q.2

/-- re.sub of the script with a plain-text pattern: replace every
occurrence, scanning left to right without overlap. -/
def replaceAll (p t s : List Char) : List Char :=
  replaceAllFuel p t s.length s

theorem replaceAllFuel_eq (p t : List Char) (hp : p ≠ []) :
    ∀ fuel f2 s, s.length ≤ fuel → s.length ≤ f2 →
      replaceAllFuel p t fuel s = replaceAllFuel p t f2 s := by
  intro fuel
  induction fuel with
  | zero =>
    intro f2 s h1 _
    have : s = [] := List.length_eq_zero.mp (Nat.le_zero.mp h1)
    subst this
    cases f2 with
    | zero => rfl
    | succ g => simp [replaceAllFuel, splitOnFirst_nil p hp]
  | succ fuel ih =>
    intro f2 s h1 h2
    cases f2 with
    | zero =>
      have : s = [] := List.length_eq_zero.mp (Nat.le_zero.mp h2)
      subst this
      simp [replaceAllFuel, splitOnFirst_nil p hp]
    | succ g =>
      cases hsp : splitOnFirst p s with
      | none => simp only [replaceAllFuel, hsp]
      | some q =>
        have hlt : q.2.length < s.length :=
          splitOnFirst_shrinks p s q.1 q.2 hp (by rw [hsp])
        simp only [replaceAllFuel, hsp]
        rw [ih g q.2 (by omega) (by omega)]

theorem replaceAll_unfold (p t : List Char) (hp : p ≠ []) (s : List Char) :
    replaceAll p t s = match splitOnFirst p s with
      | none => s
      | some q => q.1 ++ t ++ replaceAll p t q.2 := by
  cases s with
  | nil => simp [replaceAll, replaceAllFuel, splitOnFirst_nil p hp]
  | cons c s2 =>
    cases hsp : splitOnFirst p (c :: s2) with
    | none =>
      show replaceAllFuel p t (s2.length + 1) (c :: s2) = _
      simp only [replaceAllFuel, hsp]
    | some q =>
      have hlt : q.2.length < (c :: s2).length :=
        splitOnFirst_shrinks p (c :: s2) q.1 q.2 hp (by rw [hsp])
      show replaceAllFuel p t (s2.length + 1) (c :: s2) = _
      simp only [replaceAllFuel, hsp]
      rw [replaceAllFuel_eq p t hp s2.length q.2.length q.2
        (by simpa using Nat.lt_succ_iff.mp hlt) (Nat.le_refl _)]
      rfl

theorem replaceAll_append_aux (p t v : List Char) (hp : p ≠ []) (hns : noSpan p v = true) :
    ∀ n u, u.length ≤ n → replaceAll p t (u ++ v) = replaceAll p t u ++ replaceAll p t v := by
  intro n
  induction n with
  | zero =>
    intro u hu
    have : u = [] := List.length_eq_zero.mp (Nat.le_zero.mp hu)
    subst this
    simp [replaceAll, replaceAllFuel]
  | succ n ih =>
    intro u hu
    rw [replaceAll_unfold p t hp (u ++ v), splitOnFirst_append p v hp hns u]
    cases h2 : splitOnFirst p u with
    | some q =>
      have hlt : q.2.length < u.length := splitOnFirst_shrinks p u q.1 q.2 hp (by rw [h2])
      simp only []
      rw [ih q.2 (by omega)]
      rw [replaceAll_unfold p t hp u, h2]
      simp [List.append_assoc]
    | none =>
      simp only []
      cases h3 : splitOnFirst p v with
      | none =>
        rw [replaceAll_unfold p t hp u, h2, replaceAll_unfold p t hp v, h3]
        rfl
      | some qv =>
        simp only [Option.map_some']
        rw [replaceAll_unfold p t hp u, h2, replaceAll_unfold p t hp v, h3]
        simp [List.append_assoc]

theorem replaceAll_append (p t v : List Char) (hp : p ≠ []) (hns : noSpan p v = true)
    (u : List Char) : replaceAll p t (u ++ v) = replaceAll p t u ++ replaceAll p t v :=
  replaceAll_append_aux p t v hp hns u.length u (Nat.le_refl _)

theorem replaceAll_ne_nil (p t : List Char) (hp : p ≠ []) (ht : t ≠ []) :
    ∀ s, s ≠ [] → replaceAll p t s ≠ [] := by
  intro s hs
  rw [replaceAll_unfold p t hp s]
  cases hsp : splitOnFirst p s with
  | none => exact hs
  | some q => simp [ht]

theorem replaceAll_getLast_aux (p t : List Char) (hp : p ≠ []) (ht : t ≠ [])
    (hl : t.getLast? = p.getLast?) :
    ∀ n s, s.length ≤ n → (replaceAll p t s).getLast? = s.getLast? := by
  intro n
  induction n with
  | zero =>
    intro s hs
    have : s = [] := List.length_eq_zero.mp (Nat.le_zero.mp hs)
    subst this
    rfl
  | succ n ih =>
    intro s hs
    cases hsp : splitOnFirst p s with
    | none => rw [replaceAll_unfold p t hp s, hsp]
    | some q =>
      obtain ⟨b, a⟩ := q
      have hlt : a.length < s.length := splitOnFirst_shrinks p s b a hp (by rw [hsp])
      have hseq := splitOnFirst_eq_append p s b a (by rw [hsp])
      have hstep : replaceAll p t s = b ++ t ++ replaceAll p t a := by
        rw [replaceAll_unfold p t hp s, hsp]
      rw [hstep]
      by_cases hq2 : a = []
      · subst hq2
        rw [show replaceAll p t [] = [] from rfl]
        rw [List.append_nil, List.getLast?_append, hseq, List.append_nil,
          List.getLast?_append]
        rw [show t.getLast? = p.getLast? from hl]
      · have hrec : (replaceAll p t a).getLast? = a.getLast? := ih a (by omega)
        have hrne : replaceAll p t a ≠ [] := replaceAll_ne_nil p t hp ht a hq2
        rw [List.append_assoc, List.getLast?_append, List.getLast?_append, hrec, hseq,
          List.append_assoc, List.getLast?_append, List.getLast?_append]
        cases hq2l : a.getLast? with
        | none => exact absurd (List.getLast?_eq_none_iff.mp hq2l) hq2
        | some x => rfl

theorem replaceAll_getLast (p t : List Char) (hp : p ≠ []) (ht : t ≠ [])
    (hl : t.getLast? = p.getLast?) (s : List Char) :
    (replaceAll p t s).getLast? = s.getLast? :=
  replaceAll_getLast_aux p t hp ht hl s.length s (Nat.le_refl _)

/-- Candidate match position of the child-coverage targetgroup fixup regex
(one-or-more characters, then digits, then the literal _targetgroup):
position j holds a digit, at least one character precedes it, and
_targetgroup follows right after. -/
def tgCand (s : List Char) (j : Nat) : Bool :=
  decide (1 ≤ j) &&
    (match s[j]? with
     | some ch => ch.isDigit
     | none => false) &&
    (("_targetgroup".data).isPrefixOf (s.drop (j + 1)))

/-- Digit position consumed by the greedy leftmost match of the fixup
regex: the last candidate position (the greedy one-or-more group swallows
everything up to the final digit it can drop and still match, leaving a
single digit for the digit group). -/
def tgLastPos (s : List Char) : Option Nat :=
  ((List.range s.length).reverse).find? (fun j => tgCand s j)

/-- re.sub of the fixup regex with replacement group-one plus _targetgroup:
one replacement deleting the digit before the last matchable _targetgroup
(after it no candidate is left, by maximality of the chosen position, so
the scan stops). -/
def tgFix (s : List Char) : List Char :=
  match tgLastPos s with
  | none => s
  | some j => s.take j ++ "_targetgroup".data ++ s.drop (j + 13)

theorem tgLastPos_cand (s : List Char) (j : Nat) (h : tgLastPos s = some j) :
    tgCand s j = true :=
  List.find?_some h

theorem tgCand_decomp (s : List Char) (j : Nat) (h : tgCand s j = true) :
    s.drop (j + 1) = "_targetgroup".data ++ s.drop (j + 13) := by
  have hpre : ("_targetgroup".data).isPrefixOf (s.drop (j + 1)) = true := by
    simp only [tgCand, Bool.and_eq_true] at h
    exact h.2
  obtain ⟨u, hu⟩ := List.isPrefixOf_iff_prefix.mp hpre
  have hdrop : ("_targetgroup".data ++ u).drop ("_targetgroup".data).length = u :=
    List.drop_left _ _
  have hlen : ("_targetgroup".data).length = 12 := rfl
  have hu2 : u = s.drop (j + 13) := by
    rw [← hdrop, hu, hlen, List.drop_drop]
  rw [← hu, hu2]

theorem tgFix_getLast (s : List Char) : (tgFix s).getLast? = s.getLast? := by
  cases h : tgLastPos s with
  | none => simp only [tgFix, h]
  | some j =>
    have hstep : tgFix s = s.take j ++ "_targetgroup".data ++ s.drop (j + 13) := by
      simp only [tgFix, h]
    rw [hstep]
    have hdec := tgCand_decomp s j (tgLastPos_cand s j h)
    have hs : s = s.take (j + 1) ++ ("_targetgroup".data ++ s.drop (j + 13)) := by
      rw [← hdec, List.take_append_drop]
    cases hd : s.drop (j + 13) with
    | nil =>
      rw [hd, List.append_nil] at hs
      rw [List.append_nil]
      conv_rhs => rw [hs]
      rw [List.getLast?_append, List.getLast?_append]
      rfl
    | cons d ds =>
      obtain ⟨x, hx⟩ : ∃ x, (d :: ds).getLast? = some x := by
        cases hc : (d :: ds).getLast? with
        | none => exact absurd (List.getLast?_eq_none_iff.mp hc) (List.cons_ne_nil d ds)
        | some x => exact ⟨x, rfl⟩
      have h2 : s.getLast? = some x := by
        conv_lhs => rw [hs]
        rw [List.getLast?_append, List.getLast?_append, hd, hx]
        rfl
      rw [List.getLast?_append, hx, h2]
      rfl

theorem tgFix_ne_nil (s : List Char) (hs : s ≠ []) : tgFix s ≠ [] := by
  cases h : tgLastPos s with
  | none => simpa only [tgFix, h] using hs
  | some j => simp [tgFix, h]

/-- The fixup leaves a clean trailing part untouched: when the suffix v
neither contains _targetgroup nor can complete a straddling occurrence of
it, the fixup of u concatenated with v rewrites only inside u. -/
theorem tgFix_append (v : List Char)
    (hno : splitOnFirst ("_targetgroup".data) v = none)
    (hns : noSpan ("_targetgroup".data) v = true) :
    ∀ u, ∃ w, tgFix (u ++ v) = w ++ v := by
  intro u
  cases h : tgLastPos (u ++ v) with
  | none => exact ⟨u, by simp only [tgFix, h]⟩
  | some j =>
    have hcand := tgLastPos_cand (u ++ v) j h
    have hpre : ("_targetgroup".data).isPrefixOf ((u ++ v).drop (j + 1)) = true := by
      simp only [tgCand, Bool.and_eq_true] at hcand
      exact hcand.2
    have hpre2 : ("_targetgroup".data) <+: (u ++ v).drop (j + 1) :=
      List.isPrefixOf_iff_prefix.mp hpre
    have h12 : ("_targetgroup".data).length = 12 := rfl
    have hj13 : j + 13 ≤ u.length := by
      by_cases hm : j + 1 ≤ u.length
      · rw [List.drop_append_of_le_length hm] at hpre2
        rcases prefix_append_cases _ _ _ hpre2 with hl | ⟨hlt, hdrop⟩
        · have hlen2 := hl.length_le
          rw [List.length_drop, h12] at hlen2
          omega
        · rw [List.length_drop] at hlt hdrop
          rw [h12] at hlt
          by_cases hi : u.length - (j + 1) = 0
          · rw [hi, List.drop_zero] at hdrop
            obtain ⟨r, hr⟩ := hdrop
            have := splitOnFirst_isSome_of_infix ("_targetgroup".data) [] v r
              (by rw [List.nil_append, hr])
            rw [hno] at this
            exact absurd this (by simp)
          · exact absurd hdrop
              (noSpan_spec _ v hns (u.length - (j + 1)) (by omega) (by rw [h12]; omega))
      · exfalso
        have hdropv : (u ++ v).drop (j + 1) = v.drop (j + 1 - u.length) := by
          rw [show j + 1 = u.length + (j + 1 - u.length) from by omega, ← List.drop_drop,
            List.drop_left]
          congr 1
          omega
        rw [hdropv] at hpre2
        obtain ⟨r, hr⟩ := hpre2
        have := splitOnFirst_isSome_of_infix ("_targetgroup".data)
          (v.take (j + 1 - u.length)) v r
          (by rw [List.append_assoc, hr, List.take_append_drop])
        rw [hno] at this
        exact absurd this (by simp)
    have hstep : tgFix (u ++ v) =
        (u ++ v).take j ++ "_targetgroup".data ++ (u ++ v).drop (j + 13) := by
      simp only [tgFix, h]
    refine ⟨u.take j ++ "_targetgroup".data ++ u.drop (j + 13), ?_⟩
    rw [hstep, List.take_append_of_le_length (show j ≤ u.length from by omega),
      List.drop_append_of_le_length hj13]
    simp [List.append_assoc]

/-- re.sub with a plain-text pattern at the string level. -/
def reSubL (p t s : String) : String := ⟨replaceAll p.data t.data s.data⟩

/-- re.sub of the one true regex of the script, the targetgroup digit fixup
inside the child-coverage rename, at the string level. -/
def tgSubS (s : String) : String := ⟨tgFix s.data⟩

/-- Column rename of mapEpiInvToFacVisits. -/
def epiInvRename (origColName : String) : String :=
  let n1 := reSubL "quantity" "" origColName
  let n2 := reSubL "ideal" "isa" n1
  let n3 := reSubL "bcg20" "bcg" n2
  let n4 := reSubL "measles10" "measles" n3
  let n5 := reSubL "tetanus10" "tetanus" n4
  let n6 := reSubL "yfv1" "hpv2" n5
  "epi_inventory_" ++ n6

/-- Source columns pivoted by mapEpiInvToFacVisits. -/
def epiInvCols : List String :=
  ["existingquantity", "spoiledquantity", "deliveredquantity", "idealquantity"]

/-- Column rename of mapEpiUseToFacVisits. -/
def epiUseRename (origColName : String) : String :=
  let n1 := reSubL "1bcg" "bcg" origColName
  let n2 := reSubL "2bcgdil" "bcgdil" n1
  let n3 := reSubL "2polio" "polio" n2
  let n4 := reSubL "3penta" "penta" n3
  let n5 := reSubL "5measles" "measles" n4
  let n6 := reSubL "6measlesdil" "measlesdil" n5
  let n7 := reSubL "4pcv10" "pcv" n6
  let n8 := reSubL "6yfv" "hpv" n7
  let n9 := reSubL "8tetanus" "tetanus" n8
  "epi_use_" ++ n9

/-- Source columns pivoted by mapEpiUseToFacVisits. -/
def epiUseCols : List String :=
  ["first_of_month", "received", "distributed", "loss", "end_of_month", "expiration"]

/-- Column rename of mapAdultCoverageToFacVisits. -/
def adultCovRename (origColName : String) : String :=
  let n1 := reSubL "MIF 15-49 years - Students" "mif_student" origColName
  let n2 := reSubL "MIF 15-49 years - Community" "mif_community" n1
  let n3 := reSubL "MIF 15-49 years - Workers" "mif_worker" n2
  let n4 := reSubL "Students not MIF" "student" n3
  let n5 := reSubL "Other not MIF" "other" n4
  let n6 := reSubL "Workers not MIF" "worker" n5
  let n7 := reSubL "Pregnant Women" "pregnant" n6
  let n8 := reSubL "healthcentertetanus1" "tetanus1hc" n7
  let n9 := reSubL "outreachtetanus1" "tetanus1mb" n8
  let n10 := reSubL "healthcentertetanus2to5" "tetanus25hc" n9
  let n11 := reSubL "outreachtetanus2to5" "tetanus25mb" n10
  let n12 := reSubL "targetgroup" "target_group" n11
  "adult_coverage_" ++ n12

/-- Source columns pivoted by mapAdultCoverageToFacVisits. -/
def adultCovCols : List String :=
  ["healthcentertetanus1", "outreachtetanus1", "healthcentertetanus2to5",
   "outreachtetanus2to5", "targetgroup"]

/-- Column rename of mapChildCoverageToFacVisits, with the digit fixup
regex before the final targetgroup rewrite. -/
def childCovRename (origColName : String) : String :=
  let n1 := reSubL "BCG" "bcg" origColName
  let n2 := reSubL "Measles" "measles" n1
  let n3 := reSubL "PCV10 " "pcv" n2
  let n4 := reSubL "Penta " "penta" n3
  let n5 := reSubL "Polio " "polio" n4
  let n6 := reSubL "(Newborn)" "0" n5
  let n7 := reSubL "1st dose" "1" n6
  let n8 := reSubL "2nd dose" "2" n7
  let n9 := reSubL "3rd dose" "3" n8
  let n10 := reSubL "healthcenter" "hc" n9
  let n11 := reSubL "outreach" "mb" n10
  let n12 := reSubL "11months" "0_11" n11
  let n13 := reSubL "23months" "12_23" n12
  let n14 := tgSubS n13
  let n15 := reSubL "targetgroup" "target_group" n14
  "child_coverage_" ++ n15

/-- Source columns pivoted by mapChildCoverageToFacVisits. -/
def childCovCols : List String :=
  ["healthcenter11months", "outreach11months", "healthcenter23months",
   "outreach23months", "targetgroup"]

/-- Column rename of mapChildCoverageOpenVialsToFacVisits. -/
def childCovVialsRename (origColName : String) : String :=
  let n1 := reSubL "BCG" "bcg" origColName
  let n2 := reSubL "Measles" "measles" n1
  let n3 := reSubL "PCV" "pcv" n2
  let n4 := reSubL "Penta" "penta" n3
  let n5 := reSubL "Polio" "polio" n4
  let n6 := reSubL "openedvials" "vials_opened" n5
  "child_coverage_" ++ n6

/-- Source column pivoted by mapChildCoverageOpenVialsToFacVisits. -/
def childCovVialsCols : List String := ["openedvials"]

/-- mapEpiInvToFacVisits of the script. -/
def mapEpiInvToFacVisits (facVisitRows : List Row) (epiInvTable : Tab Entry)
    (epiInvProdCodes : List String) : Except Err (List Row) :=
  mapLineItemsToFacVisits facVisitRows epiInvTable "productcode" epiInvProdCodes
    epiInvCols epiInvRename

/-- mapEpiUseToFacVisits of the script. -/
def mapEpiUseToFacVisits (facVisitRows : List Row) (epiUseTable : Tab Entry)
    (epiUseProdCodes : List String) : Except Err (List Row) :=
  mapLineItemsToFacVisits facVisitRows epiUseTable "product_code" epiUseProdCodes
    epiUseCols epiUseRename

/-- mapAdultCoverageToFacVisits of the script. -/
def mapAdultCoverageToFacVisits (facVisitRows : List Row) (adultCovTable : Tab Entry)
    (adultCovDemographicGroups : List String) : Except Err (List Row) :=
  mapLineItemsToFacVisits facVisitRows adultCovTable "demographicgroup"
    adultCovDemographicGroups adultCovCols adultCovRename

/-- mapChildCoverageToFacVisits of the script. -/
def mapChildCoverageToFacVisits (facVisitRows : List Row) (childCovTable : Tab Entry)
    (childCovVaccs : List String) : Except Err (List Row) :=
  mapLineItemsToFacVisits facVisitRows childCovTable "vaccination" childCovVaccs
    childCovCols childCovRename

/-- mapChildCoverageOpenVialsToFacVisits of the script. -/
def mapChildCoverageOpenVialsToFacVisits (facVisitRows : List Row)
    (childCovOpenVialsTable : Tab Entry) (childCovProductVialNames : List String) :
    Except Err (List Row) :=
  mapLineItemsToFacVisits facVisitRows childCovOpenVialsTable "productvialname"
    childCovProductVialNames childCovVialsCols childCovVialsRename

/-- One rewriting step of a rename chain keeps a trailing part it cannot
touch, turning it into the computed rewrite of the trailing part. -/
theorem chainStep (p t K K2 : List Char) (hp : p ≠ []) (hns : noSpan p K = true)
    (hK : replaceAll p t K = K2) (s : List Char)
    (h : ∃ w, s = w ++ K) : ∃ w, replaceAll p t s = w ++ K2 := by
  obtain ⟨w, rfl⟩ := h
  rw [replaceAll_append p t K hp hns w, hK]
  exact ⟨replaceAll p t w, rfl⟩

theorem getLast?_of_suffix (K : List Char) (c : Char) (hK : K.getLast? = some c)
    (s : List Char) (h : ∃ w, s = w ++ K) : s.getLast? = some c := by
  obtain ⟨w, rfl⟩ := h
  rw [List.getLast?_append, hK]
  rfl

/-- Unfolding of the child-coverage rename into its character-level
rewriting chain. -/
theorem childCovRename_data (s : String) :
    (childCovRename s).data = "child_coverage_".data ++
      replaceAll "targetgroup".data "target_group".data (tgFix
        (replaceAll "23months".data "12_23".data
        (replaceAll "11months".data "0_11".data
        (replaceAll "outreach".data "mb".data
        (replaceAll "healthcenter".data "hc".data
        (replaceAll "3rd dose".data "3".data
        (replaceAll "2nd dose".data "2".data
        (replaceAll "1st dose".data "1".data
        (replaceAll "(Newborn)".data "0".data
        (replaceAll "Polio ".data "polio".data
        (replaceAll "Penta ".data "penta".data
        (replaceAll "PCV10 ".data "pcv".data
        (replaceAll "Measles".data "measles".data
        (replaceAll "BCG".data "bcg".data s.data)))))))))))))) := by
  simp only [childCovRename, reSubL, tgSubS, String.data_append]

/-- Unfolding of the child-coverage opened-vials rename into its
character-level rewriting chain. -/
theorem childCovVialsRename_data (s : String) :
    (childCovVialsRename s).data = "child_coverage_".data ++
      replaceAll "openedvials".data "vials_opened".data
        (replaceAll "Polio".data "polio".data
        (replaceAll "Penta".data "penta".data
        (replaceAll "PCV".data "pcv".data
        (replaceAll "Measles".data "measles".data
        (replaceAll "BCG".data "bcg".data s.data))))) := by
  simp only [childCovVialsRename, reSubL, String.data_append]

/-- Last character of a child-coverage pivot column name: always 1, 3 or p,
never the letter d that ends every opened-vials name. -/
theorem childCovRename_lastChar (u c : String) (hc : c ∈ childCovCols) :
    ∃ ch, ch ≠ 'd' ∧ ((childCovRename (u ++ "_" ++ c)).data).getLast? = some ch := by
  have hdis : c = "healthcenter11months" ∨ c = "outreach11months" ∨
      c = "healthcenter23months" ∨ c = "outreach23months" ∨ c = "targetgroup" := by
    simpa [childCovCols] using hc
  have hfinish : ∀ s13 : List Char, ∀ ch : Char, s13.getLast? = some ch →
      ("child_coverage_".data ++
        replaceAll "targetgroup".data "target_group".data (tgFix s13)).getLast? =
        some ch := by
    intro s13 ch h13
    rw [List.getLast?_append,
      replaceAll_getLast "targetgroup".data "target_group".data (by decide) (by decide)
        (by decide) (tgFix s13),
      tgFix_getLast, h13]
    rfl
  rcases hdis with rfl | rfl | rfl | rfl | rfl
  · have h0 : ∃ w, (u ++ "_" ++ "healthcenter11months").data =
        w ++ "_healthcenter11months".data :=
      ⟨u.data, by rw [String.data_append, String.data_append, List.append_assoc]; rfl⟩
    have h1 := chainStep "BCG".data "bcg".data "_healthcenter11months".data
      "_healthcenter11months".data (by decide) (by decide) (by decide) _ h0
    have h2 := chainStep "Measles".data "measles".data "_healthcenter11months".data
      "_healthcenter11months".data (by decide) (by decide) (by decide) _ h1
    have h3 := chainStep "PCV10 ".data "pcv".data "_healthcenter11months".data
      "_healthcenter11months".data (by decide) (by decide) (by decide) _ h2
    have h4 := chainStep "Penta ".data "penta".data "_healthcenter11months".data
      "_healthcenter11months".data (by decide) (by decide) (by decide) _ h3
    have h5 := chainStep "Polio ".data "polio".data "_healthcenter11months".data
      "_healthcenter11months".data (by decide) (by decide) (by decide) _ h4
    have h6 := chainStep "(Newborn)".data "0".data "_healthcenter11months".data
      "_healthcenter11months".data (by decide) (by decide) (by decide) _ h5
    have h7 := chainStep "1st dose".data "1".data "_healthcenter11months".data
      "_healthcenter11months".data (by decide) (by decide) (by decide) _ h6
    have h8 := chainStep "2nd dose".data "2".data "_healthcenter11months".data
      "_healthcenter11months".data (by decide) (by decide) (by decide) _ h7
    have h9 := chainStep "3rd dose".data "3".data "_healthcenter11months".data
      "_healthcenter11months".data (by decide) (by decide) (by decide) _ h8
    have h10 := chainStep "healthcenter".data "hc".data "_healthcenter11months".data
      "_hc11months".data (by decide) (by decide) (by decide) _ h9
    have h11 := chainStep "outreach".data "mb".data "_hc11months".data
      "_hc11months".data (by decide) (by decide) (by decide) _ h10
    have h12 := chainStep "11months".data "0_11".data "_hc11months".data
      "_hc0_11".data (by decide) (by decide) (by decide) _ h11
    have h13 := chainStep "23months".data "12_23".data "_hc0_11".data
      "_hc0_11".data (by decide) (by decide) (by decide) _ h12
    refine ⟨'1', by decide, ?_⟩
    rw [childCovRename_data]
    exact hfinish _ '1' (getLast?_of_suffix "_hc0_11".data '1' (by decide) _ h13)
  · have h0 : ∃ w, (u ++ "_" ++ "outreach11months").data =
        w ++ "_outreach11months".data :=
      ⟨u.data, by rw [String.data_append, String.data_append, List.append_assoc]; rfl⟩
    have h1 := chainStep "BCG".data "bcg".data "_outreach11months".data
      "_outreach11months".data (by decide) (by decide) (by decide) _ h0
    have h2 := chainStep "Measles".data "measles".data "_outreach11months".data
      "_outreach11months".data (by decide) (by decide) (by decide) _ h1
    have h3 := chainStep "PCV10 ".data "pcv".data "_outreach11months".data
      "_outreach11months".data (by decide) (by decide) (by decide) _ h2
    have h4 := chainStep "Penta ".data "penta".data "_outreach11months".data
      "_outreach11months".data (by decide) (by decide) (by decide) _ h3
    have h5 := chainStep "Polio ".data "polio".data "_outreach11months".data
      "_outreach11months".data (by decide) (by decide) (by decide) _ h4
    have h6 := chainStep "(Newborn)".data "0".data "_outreach11months".data
      "_outreach11months".data (by decide) (by decide) (by decide) _ h5
    have h7 := chainStep "1st dose".data "1".data "_outreach11months".data
      "_outreach11months".data (by decide) (by decide) (by decide) _ h6
    have h8 := chainStep "2nd dose".data "2".data "_outreach11months".data
      "_outreach11months".data (by decide) (by decide) (by decide) _ h7
    have h9 := chainStep "3rd dose".data "3".data "_outreach11months".data
      "_outreach11months".data (by decide) (by decide) (by decide) _ h8
    have h10 := chainStep "healthcenter".data "hc".data "_outreach11months".data
      "_outreach11months".data (by decide) (by decide) (by decide) _ h9
    have h11 := chainStep "outreach".data "mb".data "_outreach11months".data
      "_mb11months".data (by decide) (by decide) (by decide) _ h10
    have h12 := chainStep "11months".data "0_11".data "_mb11months".data
      "_mb0_11".data (by decide) (by decide) (by decide) _ h11
    have h13 := chainStep "23months".data "12_23".data "_mb0_11".data
      "_mb0_11".data (by decide) (by decide) (by decide) _ h12
    refine ⟨'1', by decide, ?_⟩
    rw [childCovRename_data]
    exact hfinish _ '1' (getLast?_of_suffix "_mb0_11".data '1' (by decide) _ h13)
  · have h0 : ∃ w, (u ++ "_" ++ "healthcenter23months").data =
        w ++ "_healthcenter23months".data :=
      ⟨u.data, by rw [String.data_append, String.data_append, List.append_assoc]; rfl⟩
    have h1 := chainStep "BCG".data "bcg".data "_healthcenter23months".data
      "_healthcenter23months".data (by decide) (by decide) (by decide) _ h0
    have h2 := chainStep "Measles".data "measles".data "_healthcenter23months".data
      "_healthcenter23months".data (by decide) (by decide) (by decide) _ h1
    have h3 := chainStep "PCV10 ".data "pcv".data "_healthcenter23months".data
      "_healthcenter23months".data (by decide) (by decide) (by decide) _ h2
    have h4 := chainStep "Penta ".data "penta".data "_healthcenter23months".data
      "_healthcenter23months".data (by decide) (by decide) (by decide) _ h3
    have h5 := chainStep "Polio ".data "polio".data "_healthcenter23months".data
      "_healthcenter23months".data (by decide) (by decide) (by decide) _ h4
    have h6 := chainStep "(Newborn)".data "0".data "_healthcenter23months".data
      "_healthcenter23months".data (by decide) (by decide) (by decide) _ h5
    have h7 := chainStep "1st dose".data "1".data "_healthcenter23months".data
      "_healthcenter23months".data (by decide) (by decide) (by decide) _ h6
    have h8 := chainStep "2nd dose".data "2".data "_healthcenter23months".data
      "_healthcenter23months".data (by decide) (by decide) (by decide) _ h7
    have h9 := chainStep "3rd dose".data "3".data "_healthcenter23months".data
      "_healthcenter23months".data (by decide) (by decide) (by decide) _ h8
    have h10 := chainStep "healthcenter".data "hc".data "_healthcenter23months".data
      "_hc23months".data (by decide) (by decide) (by decide) _ h9
    have h11 := chainStep "outreach".data "mb".data "_hc23months".data
      "_hc23months".data (by decide) (by decide) (by decide) _ h10
    have h12 := chainStep "11months".data "0_11".data "_hc23months".data
      "_hc23months".data (by decide) (by decide) (by decide) _ h11
    have h13 := chainStep "23months".data "12_23".data "_hc23months".data
      "_hc12_23".data (by decide) (by decide) (by decide) _ h12
    refine ⟨'3', by decide, ?_⟩
    rw [childCovRename_data]
    exact hfinish _ '3' (getLast?_of_suffix "_hc12_23".data '3' (by decide) _ h13)
  · have h0 : ∃ w, (u ++ "_" ++ "outreach23months").data =
        w ++ "_outreach23months".data :=
      ⟨u.data, by rw [String.data_append, String.data_append, List.append_assoc]; rfl⟩
    have h1 := chainStep "BCG".data "bcg".data "_outreach23months".data
      "_outreach23months".data (by decide) (by decide) (by decide) _ h0
    have h2 := chainStep "Measles".data "measles".data "_outreach23months".data
      "_outreach23months".data (by decide) (by decide) (by decide) _ h1
    have h3 := chainStep "PCV10 ".data "pcv".data "_outreach23months".data
      "_outreach23months".data (by decide) (by decide) (by decide) _ h2
    have h4 := chainStep "Penta ".data "penta".data "_outreach23months".data
      "_outreach23months".data (by decide) (by decide) (by decide) _ h3
    have h5 := chainStep "Polio ".data "polio".data "_outreach23months".data
      "_outreach23months".data (by decide) (by decide) (by decide) _ h4
    have h6 := chainStep "(Newborn)".data "0".data "_outreach23months".data
      "_outreach23months".data (by decide) (by decide) (by decide) _ h5
    have h7 := chainStep "1st dose".data "1".data "_outreach23months".data
      "_outreach23months".data (by decide) (by decide) (by decide) _ h6
    have h8 := chainStep "2nd dose".data "2".data "_outreach23months".data
      "_outreach23months".data (by decide) (by decide) (by decide) _ h7
    have h9 := chainStep "3rd dose".data "3".data "_outreach23months".data
      "_outreach23months".data (by decide) (by decide) (by decide) _ h8
    have h10 := chainStep "healthcenter".data "hc".data "_outreach23months".data
      "_outreach23months".data (by decide) (by decide) (by decide) _ h9
    have h11 := chainStep "outreach".data "mb".data "_outreach23months".data
      "_mb23months".data (by decide) (by decide) (by decide) _ h10
    have h12 := chainStep "11months".data "0_11".data "_mb23months".data
      "_mb23months".data (by decide) (by decide) (by decide) _ h11
    have h13 := chainStep "23months".data "12_23".data "_mb23months".data
      "_mb12_23".data (by decide) (by decide) (by decide) _ h12
    refine ⟨'3', by decide, ?_⟩
    rw [childCovRename_data]
    exact hfinish _ '3' (getLast?_of_suffix "_mb12_23".data '3' (by decide) _ h13)
  · have h0 : ∃ w, (u ++ "_" ++ "targetgroup").data = w ++ "_targetgroup".data :=
      ⟨u.data, by rw [String.data_append, String.data_append, List.append_assoc]; rfl⟩
    have h1 := chainStep "BCG".data "bcg".data "_targetgroup".data
      "_targetgroup".data (by decide) (by decide) (by decide) _ h0
    have h2 := chainStep "Measles".data "measles".data "_targetgroup".data
      "_targetgroup".data (by decide) (by decide) (by decide) _ h1
    have h3 := chainStep "PCV10 ".data "pcv".data "_targetgroup".data
      "_targetgroup".data (by decide) (by decide) (by decide) _ h2
    have h4 := chainStep "Penta ".data "penta".data "_targetgroup".data
      "_targetgroup".data (by decide) (by decide) (by decide) _ h3
    have h5 := chainStep "Polio ".data "polio".data "_targetgroup".data
      "_targetgroup".data (by decide) (by decide) (by decide) _ h4
    have h6 := chainStep "(Newborn)".data "0".data "_targetgroup".data
      "_targetgroup".data (by decide) (by decide) (by decide) _ h5
    have h7 := chainStep "1st dose".data "1".data "_targetgroup".data
      "_targetgroup".data (by decide) (by decide) (by decide) _ h6
    have h8 := chainStep "2nd dose".data "2".data "_targetgroup".data
      "_targetgroup".data (by decide) (by decide) (by decide) _ h7
    have h9 := chainStep "3rd dose".data "3".data "_targetgroup".data
      "_targetgroup".data (by decide) (by decide) (by decide) _ h8
    have h10 := chainStep "healthcenter".data "hc".data "_targetgroup".data
      "_targetgroup".data (by decide) (by decide) (by decide) _ h9
    have h11 := chainStep "outreach".data "mb".data "_targetgroup".data
      "_targetgroup".data (by decide) (by decide) (by decide) _ h10
    have h12 := chainStep "11months".data "0_11".data "_targetgroup".data
      "_targetgroup".data (by decide) (by decide) (by decide) _ h11
    have h13 := chainStep "23months".data "12_23".data "_targetgroup".data
      "_targetgroup".data (by decide) (by decide) (by decide) _ h12
    refine ⟨'p', by decide, ?_⟩
    rw [childCovRename_data]
    exact hfinish _ 'p' (getLast?_of_suffix "_targetgroup".data 'p' (by decide) _ h13)

/-- Last character of a child-coverage opened-vials pivot column name:
always the letter d. -/
theorem childCovVialsRename_lastChar (u c : String) (hc : c ∈ childCovVialsCols) :
    ((childCovVialsRename (u ++ "_" ++ c)).data).getLast? = some 'd' := by
  have hceq : c = "openedvials" := by simpa [childCovVialsCols] using hc
  subst hceq
  have h0 : ∃ w, (u ++ "_" ++ "openedvials").data = w ++ "_openedvials".data :=
    ⟨u.data, by rw [String.data_append, String.data_append, List.append_assoc]; rfl⟩
  have h1 := chainStep "BCG".data "bcg".data "_openedvials".data
    "_openedvials".data (by decide) (by decide) (by decide) _ h0
  have h2 := chainStep "Measles".data "measles".data "_openedvials".data
    "_openedvials".data (by decide) (by decide) (by decide) _ h1
  have h3 := chainStep "PCV".data "pcv".data "_openedvials".data
    "_openedvials".data (by decide) (by decide) (by decide) _ h2
  have h4 := chainStep "Penta".data "penta".data "_openedvials".data
    "_openedvials".data (by decide) (by decide) (by decide) _ h3
  have h5 := chainStep "Polio".data "polio".data "_openedvials".data
    "_openedvials".data (by decide) (by decide) (by decide) _ h4
  have h6 := chainStep "openedvials".data "vials_opened".data "_openedvials".data
    "_vials_opened".data (by decide) (by decide) (by decide) _ h5
  rw [childCovVialsRename_data, List.getLast?_append,
    getLast?_of_suffix "_vials_opened".data 'd' (by decide) _ h6]
  rfl

/-- Lookup after folding in a pair list (no distinctness needed): the folded
pairs win, last binding first, the base dict answers otherwise. -/
theorem dictGet_insertAllD_or {κ α : Type} [DecidableEq κ] (ps : List (κ × α)) :
    ∀ (d : List (κ × α)) (k : κ),
      dictGet (insertAllD d ps) k = (dictGet ps.reverse k).or (dictGet d k) := by
  induction ps with
  | nil => intro d k; simp [insertAllD, dictGet, Option.or]
  | cons p rest ih =>
    intro d k
    have hstep : insertAllD d (p :: rest) = insertAllD (dictInsert d p.1 p.2) rest := rfl
    rw [hstep, ih]
    have hsingle : dictGet (dictInsert d p.1 p.2) k = (dictGet [p] k).or (dictGet d k) := by
      by_cases hk : p.1 = k
      · rw [hk, dictGet_insert_self]
        simp [dictGet, List.find?, hk, Option.or]
      · rw [dictGet_insert_ne d p.1 k p.2 (fun hc => hk hc.symm)]
        simp [dictGet, List.find?, hk, Option.or]
    rw [hsingle, List.reverse_cons, dictGet_append, Option.or_assoc]

/-- A key absent from a dictionary is absent from its reversal too. -/
theorem dictGet_reverse_none {κ α : Type} [DecidableEq κ] (d : List (κ × α)) (k : κ)
    (h : dictGet d k = none) : dictGet d.reverse k = none := by
  apply dictGet_eq_none_of_not_mem
  intro hmem
  have hsome := dictGet_isSome_of_mem d k (by
    simpa [dictKeys, List.map_reverse, List.mem_reverse] using hmem)
  rw [h] at hsome
  exact Bool.noConfusion hsome

/-- A present key of a dictionary is present in its reversal. -/
theorem dictGet_reverse_isSome {κ α : Type} [DecidableEq κ] (d : List (κ × α)) (k : κ)
    (h : (dictGet d.reverse k).isSome) : (dictGet d k).isSome := by
  cases hd : dictGet d k with
  | some v => rfl
  | none => rw [dictGet_reverse_none d k hd] at h; exact Bool.noConfusion h

/-- Membership in a dictionary after an assignment: an old entry or the new
pair. -/
theorem mem_dictInsert {κ α : Type} [DecidableEq κ] :
    ∀ (d : List (κ × α)) (k : κ) (v : α) (q : κ × α),
      q ∈ dictInsert d k v → q ∈ d ∨ q = (k, v) := by
  intro d k v
  induction d with
  | nil => intro q hq; simp [dictInsert] at hq; exact Or.inr hq
  | cons p rest ih =>
    intro q hq
    by_cases hp : p.1 = k
    · rw [show dictInsert (p :: rest) k v = (p.1, v) :: rest from by
        simp [dictInsert, hp]] at hq
      rcases List.mem_cons.mp hq with h | h
      · exact Or.inr (by rw [h, hp])
      · exact Or.inl (List.mem_cons_of_mem _ h)
    · rw [show dictInsert (p :: rest) k v = p :: dictInsert rest k v from by
        simp [dictInsert, hp]] at hq
      rcases List.mem_cons.mp hq with h | h
      · exact Or.inl (by rw [h]; exact List.mem_cons_self _ _)
      · rcases ih q h with h2 | h2
        · exact Or.inl (List.mem_cons_of_mem _ h2)
        · exact Or.inr h2

/-- Two character lists with distinct heads of the given lengths differ. -/
theorem append_ne_of_ne_at (P w Q v : List Char) (i : Nat) (hP : i < P.length)
    (hQ : i < Q.length) (hne : P[i] ≠ Q[i]) : P ++ w ≠ Q ++ v := by
  intro h
  apply hne
  have hw : (P ++ w)[i]? = P[i]? := List.getElem?_append_left hP
  have hv : (Q ++ v)[i]? = Q[i]? := List.getElem?_append_left hQ
  have e1 : P[i]? = Q[i]? := by rw [← hw, ← hv, h]
  rw [List.getElem?_eq_getElem hP, List.getElem?_eq_getElem hQ] at e1
  exact Option.some.inj e1

/-- Every output column name of a pivot invocation comes from a (keyValue,
sourceColumn) pair, through the rename. -/
theorem pivotNames_mem_inv (f : Option (String → String)) :
    ∀ (U C : List String) (k : String), k ∈ pivotNames f U C →
      ∃ u, u ∈ U ∧ ∃ c, c ∈ C ∧ k = renameCol f u c := by
  intro U
  induction U with
  | nil => intro C k h; simp [pivotNames] at h
  | cons u us ih =>
    intro C k h
    rw [pivotNames] at h
    rcases List.mem_append.mp h with h | h
    · obtain ⟨c, hc, hk⟩ := List.mem_map.mp h
      exact ⟨u, List.mem_cons_self _ _, c, hc, hk.symm⟩
    · obtain ⟨u2, hu2, c, hc, hk⟩ := ih C k h
      exact ⟨u2, List.mem_cons_of_mem _ hu2, c, hc, hk⟩

/-- Every key of a successful entry pivot is one of the pivot output column
names. -/
theorem pivotEntry_keys (e : Entry) (kc : String) (U C : List String)
    (f : Option (String → String)) (d : Row) (hok : pivotEntry e kc U C f = .ok d) :
    ∀ k, (dictGet d k).isSome → k ∈ pivotNames f U C := by
  intro k hk
  unfold pivotEntry at hok
  cases hinner : rowToTable (Entry.toList e) kc false with
  | error err =>
    rw [hinner, exceptBindErr] at hok
    exact Except.noConfusion hok
  | ok liT =>
    rw [hinner] at hok
    simp only [exceptBindOk] at hok
    have hone := rowToTable_strict_one (Entry.toList e) kc liT hinner
    rw [pivotKeys_eq liT f C hone U []] at hok
    have hd : d = insertAllD [] (pairList liT f U C) := (Except.ok.inj hok).symm
    rw [hd, dictGet_insertAllD_or] at hk
    have hnil : dictGet ([] : Row) k = none := rfl
    rw [hnil, Option.or_none] at hk
    have hk2 := dictGet_reverse_isSome _ _ hk
    obtain ⟨v, hv⟩ := Option.isSome_iff_exists.mp hk2
    obtain ⟨q, hq, hq1, _⟩ := dictGet_mem _ _ _ hv
    have : k ∈ (pairList liT f U C).map (fun p => p.1) :=
      List.mem_map.mpr ⟨q, hq, hq1⟩
    rw [pairList_map_fst] at this
    exact this

/-- Every dict stored in a successful pivot loop output carries only pivot
output column names as keys (given the accumulator already does). -/
theorem pivotAll_values_keys (kc : String) (U C : List String)
    (f : Option (String → String)) :
    ∀ (tbl : Tab Entry) (acc p : Tab Row), pivotAll kc U C f tbl acc = .ok p →
      (∀ q ∈ acc, ∀ k, (dictGet q.2 k).isSome → k ∈ pivotNames f U C) →
      ∀ q ∈ p, ∀ k, (dictGet q.2 k).isSome → k ∈ pivotNames f U C := by
  intro tbl
  induction tbl with
  | nil =>
    intro acc p hok hacc
    have : acc = p := by simpa [pivotAll] using hok
    rw [← this]
    exact hacc
  | cons pe rest ih =>
    intro acc p hok hacc
    obtain ⟨pid0, e0⟩ := pe
    cases hent : pivotEntry e0 kc U C f with
    | error err =>
      rw [pivotAll, hent, exceptBindErr] at hok
      exact Except.noConfusion hok
    | ok d0 =>
      rw [pivotAll, hent] at hok
      simp only [exceptBindOk] at hok
      refine ih (dictInsert acc pid0 d0) p hok ?_
      intro q hq k hk
      rcases mem_dictInsert acc pid0 d0 q hq with h | h
      · exact hacc q h k hk
      · rw [h] at hk
        exact pivotEntry_keys e0 kc U C f d0 hent k hk

/-- Inputs of one pivot-and-attach pass of loadOpenLmis: the line-item table,
its key column, the distinct key universe, the source columns and the column
rename. -/
structure PassData where
  tbl : Tab Entry
  keyCol : String
  codes : List String
  cols : List String
  ren : String → String

/-- Running one pass over the visit rows. -/
def runPass (pd : PassData) (rows : List Row) : Except Err (List Row) :=
  mapLineItemsToFacVisits rows pd.tbl pd.keyCol pd.codes pd.cols pd.ren

/-- Running a list of passes in order over the visit rows. -/
def runPasses : List PassData → List Row → Except Err (List Row)
  | [], rows => .ok rows
  | pd :: rest, rows => do
    let rows2 ← runPass pd rows
    runPasses rest rows2

/-- The pivot side of a pass, which never reads the visit rows. -/
def passPivot (pd : PassData) : Except Err (Tab Row) :=
  pivotAll pd.keyCol pd.codes pd.cols (some pd.ren) pd.tbl []

/-- A pass decomposes into its row-independent pivot followed by the attach
loop. -/
theorem runPass_eq (pd : PassData) (rows : List Row) :
    runPass pd rows = match passPivot pd with
      | .error e => .error e
      | .ok pD => attachAll pD rows := by
  unfold runPass mapLineItemsToFacVisits passPivot
  cases hp : pivotAll pd.keyCol pd.codes pd.cols (some pd.ren) pd.tbl [] with
  | error e =>
    have hpl : pivotLineItems pd.tbl pd.keyCol pd.codes (some pd.cols) (some pd.ren) =
        .error e := by
      simp only [pivotLineItems, hp, Except.map]
    rw [hpl, exceptBindErr]
  | ok pD =>
    have hpl : pivotLineItems pd.tbl pd.keyCol pd.codes (some pd.cols) (some pd.ren) =
        .ok (.pivoted pD) := by
      simp only [pivotLineItems, hp, Except.map]
    rw [hpl, exceptBindOk]

/-- The set of column names one pass can write: renames of keyValue,
underscore, sourceColumn. -/
def WrittenBy (ren : String → String) (cols : List String) (k : String) : Prop :=
  ∃ u c, c ∈ cols ∧ k = ren (u ++ "_" ++ c)

/-- Every key of every pivoted dict of a successful pass pivot lies in the
write set of the pass. -/
theorem passPivot_keys (pd : PassData) (pD : Tab Row) (h : passPivot pd = .ok pD) :
    ∀ i d, dictGet pD i = some d → ∀ k, (dictGet d k).isSome →
      WrittenBy pd.ren pd.cols k := by
  intro i d hd k hk
  obtain ⟨q, hq, _, hq2⟩ := dictGet_mem pD i d hd
  have hall := pivotAll_values_keys pd.keyCol pd.codes pd.cols (some pd.ren) pd.tbl [] pD h
    (by intro q hq; simp at hq)
  have hname := hall q hq k (by rw [hq2]; exact hk)
  obtain ⟨u, _, c, hc, hkc⟩ := pivotNames_mem_inv (some pd.ren) pd.codes pd.cols k hname
  exact ⟨u, c, hc, hkc⟩

/-- Two rows with the same mapping behaviour (Python dict equality). -/
def RowExt (r r2 : Row) : Prop := ∀ k, dictGet r k = dictGet r2 k

/-- Pointwise dict equality of two row lists. -/
def RowsExt (rs rs2 : List Row) : Prop := List.Forall₂ RowExt rs rs2

theorem rowExt_refl (r : Row) : RowExt r r := fun _ => rfl

theorem rowsExt_refl (rs : List Row) : RowsExt rs rs := by
  induction rs with
  | nil => exact List.Forall₂.nil
  | cons r rest ih => exact List.Forall₂.cons (rowExt_refl r) ih

theorem rowsExt_trans {a b c : List Row} (h1 : RowsExt a b) (h2 : RowsExt b c) :
    RowsExt a c := by
  induction h1 generalizing c with
  | nil => cases h2; exact List.Forall₂.nil
  | cons hab htail ih =>
    cases h2 with
    | cons hbc htail2 =>
      exact List.Forall₂.cons (fun k => (hab k).trans (hbc k)) (ih htail2)

/-- Inversion of a successful per-row attach: the id was present, its pivot
dict was found, and the output is the fold of its entries onto the row. -/
theorem copy_ok_inv (pD : Tab Row) (fv fv2 : Row)
    (h : copyLineItemsToFacVisit pD fv = .ok fv2) :
    ∃ i d, dictGet fv "id" = some i ∧ dictGet pD i = some d ∧
      fv2 = insertAllD fv d := by
  cases hid : dictGet fv "id" with
  | none =>
    simp only [copyLineItemsToFacVisit, hid] at h
    exact Except.noConfusion h
  | some i =>
    simp only [copyLineItemsToFacVisit, hid] at h
    cases hd : dictGet pD i with
    | none =>
      simp only [hd] at h
      exact Except.noConfusion h
    | some d =>
      simp only [hd] at h
      exact ⟨i, d, rfl, hd, (Except.ok.inj h).symm⟩

/-- Introduction form of a successful per-row attach. -/
theorem copy_ok_mk (pD : Tab Row) (fv : Row) (i : Value) (d : Row)
    (hid : dictGet fv "id" = some i) (hd : dictGet pD i = some d) :
    copyLineItemsToFacVisit pD fv = .ok (insertAllD fv d) := by
  simp only [copyLineItemsToFacVisit, hid, hd]

/-- A key the folded pairs do not carry keeps its base-dict value. -/
theorem dictGet_insertAllD_of_absent (fv d : Row) (k : String)
    (hnone : dictGet d k = none) : dictGet (insertAllD fv d) k = dictGet fv k := by
  rw [dictGet_insertAllD_or, dictGet_reverse_none d k hnone, Option.none_or]

/-- A key outside the write-set bound of a dict is absent from it. -/
theorem absent_of_not_written (d : Row) (W : String → Prop)
    (hK : ∀ k, (dictGet d k).isSome → W k) (k : String) (hw : ¬ W k) :
    dictGet d k = none := by
  cases h : dictGet d k with
  | none => rfl
  | some v => exact absurd (hK k (by rw [h]; rfl)) hw

/-- Two per-row attaches from pivot dicts with disjoint key sets, neither
touching the id column, commute up to dict equality of the result row. -/
theorem copy_commute (pD1 pD2 : Tab Row) (W1 W2 : String → Prop)
    (hK1 : ∀ i d, dictGet pD1 i = some d → ∀ k, (dictGet d k).isSome → W1 k)
    (hK2 : ∀ i d, dictGet pD2 i = some d → ∀ k, (dictGet d k).isSome → W2 k)
    (hdisj : ∀ k, W1 k → W2 k → False)
    (hid1 : ¬ W1 "id") (hid2 : ¬ W2 "id")
    (fv fv1 fv12 : Row)
    (h1 : copyLineItemsToFacVisit pD1 fv = .ok fv1)
    (h2 : copyLineItemsToFacVisit pD2 fv1 = .ok fv12) :
    ∃ fv2 fv21, copyLineItemsToFacVisit pD2 fv = .ok fv2 ∧
      copyLineItemsToFacVisit pD1 fv2 = .ok fv21 ∧ RowExt fv12 fv21 := by
  obtain ⟨i, d1, hid, hd1, hfv1⟩ := copy_ok_inv pD1 fv fv1 h1
  obtain ⟨i2, d2, hid2q, hd2, hfv12⟩ := copy_ok_inv pD2 fv1 fv12 h2
  have hd1abs : dictGet d1 "id" = none :=
    absent_of_not_written d1 W1 (hK1 i d1 hd1) "id" hid1
  have hid1b : dictGet fv1 "id" = some i := by
    rw [hfv1, dictGet_insertAllD_of_absent fv d1 "id" hd1abs, hid]
  have hii : i2 = i := Option.some.inj (hid2q.symm.trans hid1b)
  subst hii
  have hd2abs : dictGet d2 "id" = none :=
    absent_of_not_written d2 W2 (hK2 i2 d2 hd2) "id" hid2
  refine ⟨insertAllD fv d2, insertAllD (insertAllD fv d2) d1,
    copy_ok_mk pD2 fv i2 d2 hid hd2, ?_, ?_⟩
  · apply copy_ok_mk pD1 (insertAllD fv d2) i2 d1 ?_ hd1
    rw [dictGet_insertAllD_of_absent fv d2 "id" hd2abs, hid]
  · rw [hfv12, hfv1]
    intro k
    simp only [dictGet_insertAllD_or]
    cases hr1 : dictGet d1.reverse k with
    | none => simp only [hr1, Option.none_or]
    | some v =>
      have hw1 : W1 k :=
        hK1 i2 d1 hd1 k (dictGet_reverse_isSome d1 k (by rw [hr1]; rfl))
      have hr2 : dictGet d2.reverse k = none :=
        dictGet_reverse_none d2 k (absent_of_not_written d2 W2 (hK2 i2 d2 hd2) k
          (fun hw2 => hdisj k hw1 hw2))
      simp only [hr1, hr2, Option.none_or]

/-- Per-row attach respects dict equality of the input row. -/
theorem copy_congr (pD : Tab Row) (fv fv2 fv3 : Row) (hext : RowExt fv fv2)
    (h : copyLineItemsToFacVisit pD fv = .ok fv3) :
    ∃ fv4, copyLineItemsToFacVisit pD fv2 = .ok fv4 ∧ RowExt fv3 fv4 := by
  obtain ⟨i, d, hid, hd, hfv3⟩ := copy_ok_inv pD fv fv3 h
  have hid2 : dictGet fv2 "id" = some i := by rw [← hext "id"]; exact hid
  refine ⟨insertAllD fv2 d, copy_ok_mk pD fv2 i d hid2 hd, ?_⟩
  rw [hfv3]
  intro k
  simp only [dictGet_insertAllD_or, hext k]

/-- Assembly form of a successful attach loop step. -/
theorem attachAll_cons_ok (pD : Tab Row) (fv : Row) (rest : List Row) (fv2 : Row)
    (rest2 : List Row) (h1 : copyLineItemsToFacVisit pD fv = .ok fv2)
    (h2 : attachAll pD rest = .ok rest2) :
    attachAll pD (fv :: rest) = .ok (fv2 :: rest2) := by
  simp only [attachAll, h1, h2, exceptBindOk]
  rfl

/-- The attach loop respects pointwise dict equality of the visit rows. -/
theorem attachAll_congr (pD : Tab Row) :
    ∀ (rows rows2 out : List Row), RowsExt rows rows2 → attachAll pD rows = .ok out →
      ∃ out2, attachAll pD rows2 = .ok out2 ∧ RowsExt out out2 := by
  intro rows rows2 out hext
  induction hext generalizing out with
  | nil =>
    intro h
    refine ⟨[], rfl, ?_⟩
    have : ([] : List Row) = out := Except.ok.inj h
    rw [← this]
    exact List.Forall₂.nil
  | cons hfv htail ih =>
    rename_i fv fv2 rest rest2r
    intro h
    cases h1 : copyLineItemsToFacVisit pD fv with
    | error e =>
      simp only [attachAll, h1, exceptBindErr] at h
      exact Except.noConfusion h
    | ok fv3 =>
      simp only [attachAll, h1, exceptBindOk] at h
      cases h2 : attachAll pD rest with
      | error e =>
        rw [h2, exceptBindErr] at h
        exact Except.noConfusion h
      | ok rest3 =>
        rw [h2, exceptBindOk] at h
        obtain ⟨fv4, h3, hext3⟩ := copy_congr pD fv fv2 fv3 hfv h1
        obtain ⟨out2, h4, hext4⟩ := ih rest3 h2
        refine ⟨fv4 :: out2, attachAll_cons_ok pD fv2 rest2r fv4 out2 h3 h4, ?_⟩
        have : fv3 :: rest3 = out := Except.ok.inj h
        rw [← this]
        exact List.Forall₂.cons hext3 hext4

/-- Two whole attach loops from pivot dicts with disjoint key sets commute
up to pointwise dict equality. -/
theorem attachAll_commute (pD1 pD2 : Tab Row) (W1 W2 : String → Prop)
    (hK1 : ∀ i d, dictGet pD1 i = some d → ∀ k, (dictGet d k).isSome → W1 k)
    (hK2 : ∀ i d, dictGet pD2 i = some d → ∀ k, (dictGet d k).isSome → W2 k)
    (hdisj : ∀ k, W1 k → W2 k → False)
    (hid1 : ¬ W1 "id") (hid2 : ¬ W2 "id") :
    ∀ (rows r1 r12 : List Row), attachAll pD1 rows = .ok r1 →
      attachAll pD2 r1 = .ok r12 →
      ∃ r2 r21, attachAll pD2 rows = .ok r2 ∧ attachAll pD1 r2 = .ok r21 ∧
        RowsExt r12 r21 := by
  intro rows
  induction rows with
  | nil =>
    intro r1 r12 h1 h2
    have e1 : ([] : List Row) = r1 := Except.ok.inj h1
    rw [← e1] at h2
    have e2 : ([] : List Row) = r12 := Except.ok.inj h2
    exact ⟨[], [], rfl, rfl, by rw [← e2]; exact List.Forall₂.nil⟩
  | cons fv rest ih =>
    intro r1 r12 h1 h2
    cases hc1 : copyLineItemsToFacVisit pD1 fv with
    | error e =>
      simp only [attachAll, hc1, exceptBindErr] at h1
      exact Except.noConfusion h1
    | ok fv1 =>
      simp only [attachAll, hc1, exceptBindOk] at h1
      cases hr1 : attachAll pD1 rest with
      | error e =>
        rw [hr1, exceptBindErr] at h1
        exact Except.noConfusion h1
      | ok rest1 =>
        rw [hr1, exceptBindOk] at h1
        have e1 : fv1 :: rest1 = r1 := Except.ok.inj h1
        rw [← e1] at h2
        cases hc2 : copyLineItemsToFacVisit pD2 fv1 with
        | error e =>
          simp only [attachAll, hc2, exceptBindErr] at h2
          exact Except.noConfusion h2
        | ok fv12 =>
          simp only [attachAll, hc2, exceptBindOk] at h2
          cases hr2 : attachAll pD2 rest1 with
          | error e =>
            rw [hr2, exceptBindErr] at h2
            exact Except.noConfusion h2
          | ok rest12 =>
            rw [hr2, exceptBindOk] at h2
            have e2 : fv12 :: rest12 = r12 := Except.ok.inj h2
            obtain ⟨fv2, fv21, hc2b, hc1b, hextrow⟩ :=
              copy_commute pD1 pD2 W1 W2 hK1 hK2 hdisj hid1 hid2 fv fv1 fv12 hc1 hc2
            obtain ⟨rest2, rest21, hrest2, hrest21, hextrest⟩ :=
              ih rest1 rest12 hr1 hr2
            refine ⟨fv2 :: rest2, fv21 :: rest21,
              attachAll_cons_ok pD2 fv rest fv2 rest2 hc2b hrest2,
              attachAll_cons_ok pD1 fv2 rest2 fv21 rest21 hc1b hrest21, ?_⟩
            rw [← e2]
            exact List.Forall₂.cons hextrow hextrest

/-- A whole pass respects pointwise dict equality of the visit rows. -/
theorem runPass_congr (pd : PassData) (rows rows2 out : List Row)
    (hext : RowsExt rows rows2) (h : runPass pd rows = .ok out) :
    ∃ out2, runPass pd rows2 = .ok out2 ∧ RowsExt out out2 := by
  rw [runPass_eq] at h ⊢
  cases hp : passPivot pd with
  | error e =>
    rw [hp] at h
    exact Except.noConfusion h
  | ok pD =>
    rw [hp] at h
    exact attachAll_congr pD rows rows2 out hext h

/-- A pass sequence respects pointwise dict equality of the visit rows. -/
theorem runPasses_congr :
    ∀ (ps : List PassData) (rows rows2 out : List Row), RowsExt rows rows2 →
      runPasses ps rows = .ok out →
      ∃ out2, runPasses ps rows2 = .ok out2 ∧ RowsExt out out2 := by
  intro ps
  induction ps with
  | nil =>
    intro rows rows2 out hext h
    have : rows = out := Except.ok.inj h
    exact ⟨rows2, rfl, by rw [← this]; exact hext⟩
  | cons pd rest ih =>
    intro rows rows2 out hext h
    cases h1 : runPass pd rows with
    | error e =>
      simp only [runPasses, h1, exceptBindErr] at h
      exact Except.noConfusion h
    | ok r1 =>
      simp only [runPasses, h1, exceptBindOk] at h
      obtain ⟨r2, h2, hext2⟩ := runPass_congr pd rows rows2 r1 hext h1
      obtain ⟨out2, h3, hext3⟩ := ih r1 r2 out hext2 h
      exact ⟨out2, by simp only [runPasses, h2, exceptBindOk]; exact h3, hext3⟩

/-- Disjointness of the write sets of two passes. -/
def PassDisj (a b : PassData) : Prop :=
  ∀ k, WrittenBy a.ren a.cols k → WrittenBy b.ren b.cols k → False

theorem passDisj_symm : Symmetric PassDisj :=
  fun _ _ h k ha hb => h k hb ha

/-- Two passes with disjoint write sets, neither touching the id column,
commute up to pointwise dict equality of the visit rows. -/
theorem runPass_commute (pd1 pd2 : PassData) (hdisj : PassDisj pd1 pd2)
    (hid1 : ¬ WrittenBy pd1.ren pd1.cols "id")
    (hid2 : ¬ WrittenBy pd2.ren pd2.cols "id")
    (rows r1 r12 : List Row)
    (h1 : runPass pd1 rows = .ok r1) (h2 : runPass pd2 r1 = .ok r12) :
    ∃ r2 r21, runPass pd2 rows = .ok r2 ∧ runPass pd1 r2 = .ok r21 ∧
      RowsExt r12 r21 := by
  rw [runPass_eq] at h1 h2
  cases hp1 : passPivot pd1 with
  | error e =>
    rw [hp1] at h1
    exact Except.noConfusion h1
  | ok pD1 =>
    rw [hp1] at h1
    cases hp2 : passPivot pd2 with
    | error e =>
      rw [hp2] at h2
      exact Except.noConfusion h2
    | ok pD2 =>
      rw [hp2] at h2
      obtain ⟨r2, r21, ha2, ha1, hext⟩ := attachAll_commute pD1 pD2
        (WrittenBy pd1.ren pd1.cols) (WrittenBy pd2.ren pd2.cols)
        (passPivot_keys pd1 pD1 hp1) (passPivot_keys pd2 pD2 hp2)
        hdisj hid1 hid2 rows r1 r12 h1 h2
      refine ⟨r2, r21, ?_, ?_, hext⟩
      · rw [runPass_eq, hp2]; exact ha2
      · rw [runPass_eq, hp1]; exact ha1

/-- Pass sequences that are permutations of each other produce pointwise
dict-equal visit rows, provided the write sets are pairwise disjoint and no
pass writes the id column. -/
theorem runPasses_perm (ps ps2 : List PassData) (hperm : List.Perm ps ps2) :
    (∀ pd ∈ ps, ¬ WrittenBy pd.ren pd.cols "id") →
    ps.Pairwise PassDisj →
    ∀ rows out, runPasses ps rows = .ok out →
      ∃ out2, runPasses ps2 rows = .ok out2 ∧ RowsExt out out2 := by
  induction hperm with
  | nil =>
    intro _ _ rows out h
    exact ⟨out, h, rowsExt_refl out⟩
  | cons pd hp ih =>
    intro hid hdisj rows out h
    cases h1 : runPass pd rows with
    | error e =>
      simp only [runPasses, h1, exceptBindErr] at h
      exact Except.noConfusion h
    | ok r1 =>
      simp only [runPasses, h1, exceptBindOk] at h
      obtain ⟨out2, h2, hext⟩ := ih
        (fun q hq => hid q (List.mem_cons_of_mem _ hq)) hdisj.of_cons r1 out h
      exact ⟨out2, by simp only [runPasses, h1, exceptBindOk]; exact h2, hext⟩
  | swap x y l =>
    intro hid hdisj rows out h
    cases h1 : runPass y rows with
    | error e =>
      simp only [runPasses, h1, exceptBindErr] at h
      exact Except.noConfusion h
    | ok r1 =>
      simp only [runPasses, h1, exceptBindOk] at h
      cases h2 : runPass x r1 with
      | error e =>
        simp only [runPasses, h2, exceptBindErr] at h
        exact Except.noConfusion h
      | ok r2 =>
        simp only [runPasses, h2, exceptBindOk] at h
        have hyx : PassDisj y x :=
          (List.pairwise_cons.mp hdisj).1 x (List.mem_cons_self _ _)
        have hidy : ¬ WrittenBy y.ren y.cols "id" :=
          hid y (List.mem_cons_self _ _)
        have hidx : ¬ WrittenBy x.ren x.cols "id" :=
          hid x (List.mem_cons_of_mem _ (List.mem_cons_self _ _))
        obtain ⟨r2b, r21, hx, hy, hext⟩ :=
          runPass_commute y x hyx hidy hidx rows r1 r2 h1 h2
        obtain ⟨out2, hrest, hext2⟩ := runPasses_congr l r2 r21 out hext h
        refine ⟨out2, ?_, hext2⟩
        simp only [runPasses, hx, exceptBindOk, hy]
        exact hrest
  | trans hp1 hp2 ih1 ih2 =>
    intro hid hdisj rows out h
    obtain ⟨out2, h2, hext2⟩ := ih1 hid hdisj rows out h
    obtain ⟨out3, h3, hext3⟩ := ih2
      (fun q hq => hid q (hp1.mem_iff.mpr hq))
      ((hp1.pairwise_iff (fun hab => passDisj_symm hab)).mp hdisj) rows out2 h2
    exact ⟨out3, h3, rowsExt_trans hext2 hext3⟩

/-- The epi-inventory rename always emits the epi_inventory_ lead. -/
theorem epiInvRename_lead (s : String) :
    ∃ w, (epiInvRename s).data = "epi_inventory_".data ++ w := by
  simp only [epiInvRename, reSubL, String.data_append]
  exact ⟨_, rfl⟩

/-- The epi-use rename always emits the epi_use_ lead. -/
theorem epiUseRename_lead (s : String) :
    ∃ w, (epiUseRename s).data = "epi_use_".data ++ w := by
  simp only [epiUseRename, reSubL, String.data_append]
  exact ⟨_, rfl⟩

/-- The adult-coverage rename always emits the adult_coverage_ lead. -/
theorem adultCovRename_lead (s : String) :
    ∃ w, (adultCovRename s).data = "adult_coverage_".data ++ w := by
  simp only [adultCovRename, reSubL, String.data_append]
  exact ⟨_, rfl⟩

/-- The child-coverage rename always emits the child_coverage_ lead. -/
theorem childCovRename_lead (s : String) :
    ∃ w, (childCovRename s).data = "child_coverage_".data ++ w := by
  rw [childCovRename_data]
  exact ⟨_, rfl⟩

/-- The child-coverage opened-vials rename always emits the child_coverage_
lead. -/
theorem childCovVialsRename_lead (s : String) :
    ∃ w, (childCovVialsRename s).data = "child_coverage_".data ++ w := by
  rw [childCovVialsRename_data]
  exact ⟨_, rfl⟩

/-- Two renames whose fixed leads differ at some position never produce the
same name. -/
theorem ne_of_lead_ne (f g : String → String) (P Q : List Char)
    (hf : ∀ s, ∃ w, (f s).data = P ++ w) (hg : ∀ s, ∃ w, (g s).data = Q ++ w)
    (i : Nat) (hiP : i < P.length) (hiQ : i < Q.length)
    (hne : P[i] ≠ Q[i]) (x y : String) : f x ≠ g y := by
  intro hc
  obtain ⟨w, hw⟩ := hf x
  obtain ⟨v, hv⟩ := hg y
  exact append_ne_of_ne_at P w Q v i hiP hiQ hne (by rw [← hw, ← hv, hc])

/-- A rename whose fixed lead differs from a literal at some position never
produces that literal. -/
theorem ne_str_of_lead_ne (f : String → String) (P : List Char)
    (hf : ∀ s, ∃ w, (f s).data = P ++ w) (t : String) (i : Nat)
    (hiP : i < P.length) (hit : i < t.data.length) (hne : P[i] ≠ t.data[i])
    (x : String) : f x ≠ t := by
  intro hc
  obtain ⟨w, hw⟩ := hf x
  apply append_ne_of_ne_at P w t.data [] i hiP hit hne
  rw [← hw, hc, List.append_nil]

/-- A child-coverage name never equals an opened-vials name: their last
characters differ (1, 3 or p against d). -/
theorem childCov_vials_ne (u c u2 c2 : String) (hc : c ∈ childCovCols)
    (hc2 : c2 ∈ childCovVialsCols) :
    childCovRename (u ++ "_" ++ c) ≠ childCovVialsRename (u2 ++ "_" ++ c2) := by
  intro hcon
  obtain ⟨ch, hne, hlast⟩ := childCovRename_lastChar u c hc
  have h2 := childCovVialsRename_lastChar u2 c2 hc2
  rw [hcon] at hlast
  exact hne (Option.some.inj (hlast.symm.trans h2))

/-- Write-set disjointness from pointwise rename inequality. -/
theorem passDisj_of_ren_ne (a b : PassData)
    (h : ∀ x y : String, a.ren x ≠ b.ren y) : PassDisj a b := by
  rintro k ⟨u, c, hc, rfl⟩ ⟨u2, c2, hc2, hk⟩
  exact h (u ++ "_" ++ c) (u2 ++ "_" ++ c2) hk

/-- The five pivot-and-attach passes of loadOpenLmis, in script order:
epi inventory, epi use, adult coverage, child coverage, child coverage
opened vials, each over its line-item table and key universe. -/
def theFivePasses (t1 t2 t3 t4 t5 : Tab Entry) (u1 u2 u3 u4 u5 : List String) :
    List PassData :=
  [⟨t1, "productcode", u1, epiInvCols, epiInvRename⟩,
   ⟨t2, "product_code", u2, epiUseCols, epiUseRename⟩,
   ⟨t3, "demographicgroup", u3, adultCovCols, adultCovRename⟩,
   ⟨t4, "vaccination", u4, childCovCols, childCovRename⟩,
   ⟨t5, "productvialname", u5, childCovVialsCols, childCovVialsRename⟩]

/-- No pass of loadOpenLmis ever writes the id column. -/
theorem fivePasses_id (t1 t2 t3 t4 t5 : Tab Entry) (u1 u2 u3 u4 u5 : List String) :
    ∀ pd ∈ theFivePasses t1 t2 t3 t4 t5 u1 u2 u3 u4 u5,
      ¬ WrittenBy pd.ren pd.cols "id" := by
  intro pd hpd
  simp only [theFivePasses, List.mem_cons, List.not_mem_nil, or_false] at hpd
  rcases hpd with rfl | rfl | rfl | rfl | rfl
  all_goals rintro ⟨u, c, hc, hk⟩
  · exact ne_str_of_lead_ne epiInvRename "epi_inventory_".data epiInvRename_lead
      "id" 0 (by decide) (by decide) (by decide) _ hk.symm
  · exact ne_str_of_lead_ne epiUseRename "epi_use_".data epiUseRename_lead
      "id" 0 (by decide) (by decide) (by decide) _ hk.symm
  · exact ne_str_of_lead_ne adultCovRename "adult_coverage_".data adultCovRename_lead
      "id" 0 (by decide) (by decide) (by decide) _ hk.symm
  · exact ne_str_of_lead_ne childCovRename "child_coverage_".data childCovRename_lead
      "id" 0 (by decide) (by decide) (by decide) _ hk.symm
  · exact ne_str_of_lead_ne childCovVialsRename "child_coverage_".data
      childCovVialsRename_lead "id" 0 (by decide) (by decide) (by decide) _ hk.symm

/-- The write sets of the five passes are pairwise disjoint: the first four
category leads differ pairwise at their first or fifth character, and the
two child_coverage_ categories differ at the last character of every name
they produce. -/
theorem fivePasses_disj (t1 t2 t3 t4 t5 : Tab Entry) (u1 u2 u3 u4 u5 : List String) :
    (theFivePasses t1 t2 t3 t4 t5 u1 u2 u3 u4 u5).Pairwise PassDisj := by
  simp only [theFivePasses]
  refine List.Pairwise.cons ?_ (List.Pairwise.cons ?_ (List.Pairwise.cons ?_
    (List.Pairwise.cons ?_ (List.Pairwise.cons ?_ List.Pairwise.nil))))
  · intro pd hpd
    simp only [List.mem_cons, List.not_mem_nil, or_false] at hpd
    rcases hpd with rfl | rfl | rfl | rfl
    · exact passDisj_of_ren_ne _ _ (ne_of_lead_ne epiInvRename epiUseRename
        "epi_inventory_".data "epi_use_".data epiInvRename_lead epiUseRename_lead
        4 (by decide) (by decide) (by decide))
    · exact passDisj_of_ren_ne _ _ (ne_of_lead_ne epiInvRename adultCovRename
        "epi_inventory_".data "adult_coverage_".data epiInvRename_lead
        adultCovRename_lead 0 (by decide) (by decide) (by decide))
    · exact passDisj_of_ren_ne _ _ (ne_of_lead_ne epiInvRename childCovRename
        "epi_inventory_".data "child_coverage_".data epiInvRename_lead
        childCovRename_lead 0 (by decide) (by decide) (by decide))
    · exact passDisj_of_ren_ne _ _ (ne_of_lead_ne epiInvRename childCovVialsRename
        "epi_inventory_".data "child_coverage_".data epiInvRename_lead
        childCovVialsRename_lead 0 (by decide) (by decide) (by decide))
  · intro pd hpd
    simp only [List.mem_cons, List.not_mem_nil, or_false] at hpd
    rcases hpd with rfl | rfl | rfl
    · exact passDisj_of_ren_ne _ _ (ne_of_lead_ne epiUseRename adultCovRename
        "epi_use_".data "adult_coverage_".data epiUseRename_lead adultCovRename_lead
        0 (by decide) (by decide) (by decide))
    · exact passDisj_of_ren_ne _ _ (ne_of_lead_ne epiUseRename childCovRename
        "epi_use_".data "child_coverage_".data epiUseRename_lead childCovRename_lead
        0 (by decide) (by decide) (by decide))
    · exact passDisj_of_ren_ne _ _ (ne_of_lead_ne epiUseRename childCovVialsRename
        "epi_use_".data "child_coverage_".data epiUseRename_lead
        childCovVialsRename_lead 0 (by decide) (by decide) (by decide))
  · intro pd hpd
    simp only [List.mem_cons, List.not_mem_nil, or_false] at hpd
    rcases hpd with rfl | rfl
    · exact passDisj_of_ren_ne _ _ (ne_of_lead_ne adultCovRename childCovRename
        "adult_coverage_".data "child_coverage_".data adultCovRename_lead
        childCovRename_lead 0 (by decide) (by decide) (by decide))
    · exact passDisj_of_ren_ne _ _ (ne_of_lead_ne adultCovRename childCovVialsRename
        "adult_coverage_".data "child_coverage_".data adultCovRename_lead
        childCovVialsRename_lead 0 (by decide) (by decide) (by decide))
  · intro pd hpd
    simp only [List.mem_cons, List.not_mem_nil, or_false] at hpd
    rcases hpd with rfl
    rintro k ⟨u, c, hc, rfl⟩ ⟨u2, c2, hc2, hk⟩
    exact childCov_vials_ne u c u2 c2 hc hc2 hk
  · intro pd hpd
    simp at hpd

/-- The canonical loadOpenLmis sequence of the five passes, as a pass list
run. -/
theorem runPasses_five (t1 t2 t3 t4 t5 : Tab Entry) (u1 u2 u3 u4 u5 : List String)
    (rows r1 r2 r3 r4 r5 : List Row)
    (h1 : mapEpiInvToFacVisits rows t1 u1 = .ok r1)
    (h2 : mapEpiUseToFacVisits r1 t2 u2 = .ok r2)
    (h3 : mapAdultCoverageToFacVisits r2 t3 u3 = .ok r3)
    (h4 : mapChildCoverageToFacVisits r3 t4 u4 = .ok r4)
    (h5 : mapChildCoverageOpenVialsToFacVisits r4 t5 u5 = .ok r5) :
    runPasses (theFivePasses t1 t2 t3 t4 t5 u1 u2 u3 u4 u5) rows = .ok r5 := by
  have e1 : runPass ⟨t1, "productcode", u1, epiInvCols, epiInvRename⟩ rows = .ok r1 := h1
  have e2 : runPass ⟨t2, "product_code", u2, epiUseCols, epiUseRename⟩ r1 = .ok r2 := h2
  have e3 : runPass ⟨t3, "demographicgroup", u3, adultCovCols, adultCovRename⟩ r2 =
      .ok r3 := h3
  have e4 : runPass ⟨t4, "vaccination", u4, childCovCols, childCovRename⟩ r3 =
      .ok r4 := h4
  have e5 : runPass ⟨t5, "productvialname", u5, childCovVialsCols, childCovVialsRename⟩
      r4 = .ok r5 := h5
  simp only [theFivePasses, runPasses, e1, e2, e3, e4, e5, exceptBindOk]

/-- C8: for every collection of visit rows and the five line-item category
inputs (inventory, use, adult coverage, child coverage, child coverage
opened vials), running the five pivot-and-attach passes in any order
produces the same final visit rows (as Python dicts): the final column
names written by distinct categories never collide, so the passes commute
up to pointwise dict equality. -/
theorem fivePasses_commute (t1 t2 t3 t4 t5 : Tab Entry) (u1 u2 u3 u4 u5 : List String)
    (ps2 : List PassData)
    (hperm : List.Perm (theFivePasses t1 t2 t3 t4 t5 u1 u2 u3 u4 u5) ps2)
    (rows r1 r2 r3 r4 r5 : List Row)
    (h1 : mapEpiInvToFacVisits rows t1 u1 = .ok r1)
    (h2 : mapEpiUseToFacVisits r1 t2 u2 = .ok r2)
    (h3 : mapAdultCoverageToFacVisits r2 t3 u3 = .ok r3)
    (h4 : mapChildCoverageToFacVisits r3 t4 u4 = .ok r4)
    (h5 : mapChildCoverageOpenVialsToFacVisits r4 t5 u5 = .ok r5) :
    ∃ out, runPasses ps2 rows = .ok out ∧ RowsExt r5 out :=
  runPasses_perm _ ps2 hperm (fivePasses_id t1 t2 t3 t4 t5 u1 u2 u3 u4 u5)
    (fivePasses_disj t1 t2 t3 t4 t5 u1 u2 u3 u4 u5) rows r5
    (runPasses_five t1 t2 t3 t4 t5 u1 u2 u3 u4 u5 rows r1 r2 r3 r4 r5 h1 h2 h3 h4 h5)

theorem fivePasses_commute_witness :
    ∃ out, runPasses
        [⟨[], "product_code", [], epiUseCols, epiUseRename⟩,
         ⟨[], "productcode", [], epiInvCols, epiInvRename⟩,
         ⟨[], "demographicgroup", [], adultCovCols, adultCovRename⟩,
         ⟨[], "vaccination", [], childCovCols, childCovRename⟩,
         ⟨[], "productvialname", [], childCovVialsCols, childCovVialsRename⟩]
        [] = .ok out ∧ RowsExt [] out :=
  fivePasses_commute [] [] [] [] [] [] [] [] [] [] _ (List.Perm.swap _ _ _)
    [] [] [] [] [] [] rfl rfl rfl rfl rfl

end Etl
